import Mathlib

/-!
# Verification of `normxsd.py`

A shallow embedding of the XSD-normalisation tool `normxsd.py` together with
proofs about its transformation pipeline and its file/directory driver.

Modelling conventions:
* Python strings are Lean `String`s (sequences of code points); Python's
  lexicographic string comparison is the code-point comparison `strLe` below.
* `xml.etree.ElementTree.Element` is modelled by the `Element` inductive:
  a qualified tag, an insertion-ordered attribute mapping (`List` of pairs;
  a real attribute dict has distinct keys, which is a hypothesis where needed),
  the `text` and `tail` strings (Python's `None` is represented by `""` —
  every test the program performs on `text`/`tail` is a truthiness test, which
  identifies `None` and `""`), and the list of child elements.
* Python's `sorted` is a stable sort; it is modelled by the stable insertion
  sort `isort` below, parameterised by a key function and a boolean total
  preorder on keys.
-/

namespace NormXSD

/-! ## Definitions -/

/-- Strict comparison of two characters by code point, as Python compares
characters inside strings. -/
def charLt (a b : Char) : Bool := a.toNat < b.toNat

/-- Lexicographic "less or equal" on lists of characters. -/
def listLe : List Char → List Char → Bool
  | [], _ => true
  | _ :: _, [] => false
  | a :: as, b :: bs => if charLt a b then true else if a = b then listLe as bs else false

/-- Python's `<=` on strings: lexicographic comparison by code point. -/
def strLe (a b : String) : Bool := listLe a.data b.data

/-- Insert `x` into `l` in front of the first element whose key is not
smaller: this realises a stable sort, since `x` (originally in front of every
element of `l`) lands in front of all elements with an equal key. -/
def insortKey (key : α → κ) (le : κ → κ → Bool) (x : α) : List α → List α
  | [] => [x]
  | y :: ys => if le (key x) (key y) then x :: y :: ys else y :: insortKey key le x ys

/-- Stable insertion sort by a key function, modelling Python's stable
`sorted(xs, key=...)` under the total preorder `le` on keys. -/
def isort (key : α → κ) (le : κ → κ → Bool) : List α → List α
  | [] => []
  | x :: xs => insortKey key le x (isort key le xs)

/-- Lexicographic "less or equal" on pairs, primary component first. -/
def lexLe [DecidableEq κ₂] (le₂ : κ₂ → κ₂ → Bool) (le₁ : κ₁ → κ₁ → Bool)
    (a b : κ₂ × κ₁) : Bool :=
  if a.1 = b.1 then le₁ a.2 b.2 else le₂ a.1 b.1

/-- Python's whitespace class for `str.strip()` restricted to the ASCII
whitespace characters that can occur in this program's processing. -/
def isPySpace (c : Char) : Bool :=
  c = ' ' || c = '\t' || c = '\n' || c = '\r' || c = '\x0b' || c = '\x0c'

/-- Strip `isPySpace` characters from both ends of a character list. -/
def trimList (l : List Char) : List Char :=
  ((l.dropWhile isPySpace).reverse.dropWhile isPySpace).reverse

/-- Python's `s.strip()`. -/
def pyStrip (s : String) : String := ⟨trimList s.data⟩

inductive Element where
  | mk (tag : String) (attrib : List (String × String)) (text : String)
      (tail : String) (children : List Element)

def Element.tag : Element → String
  | .mk t _ _ _ _ => t

def Element.attrib : Element → List (String × String)
  | .mk _ a _ _ _ => a

def Element.text : Element → String
  | .mk _ _ x _ _ => x

def Element.tail : Element → String
  | .mk _ _ _ l _ => l

def Element.children : Element → List Element
  | .mk _ _ _ _ cs => cs

/-- Replace the child list (Python `element[:] = ...`). -/
def Element.withChildren (e : Element) (cs : List Element) : Element :=
  Element.mk e.tag e.attrib e.text e.tail cs

/-- Replace the text (Python `element.text = ...`). -/
def Element.withText (e : Element) (x : String) : Element :=
  Element.mk e.tag e.attrib x e.tail e.children

/-- Replace the tail (Python `element.tail = ...`). -/
def Element.withTail (e : Element) (l : String) : Element :=
  Element.mk e.tag e.attrib e.text l e.children

/-- Replace the attribute mapping (Python `attrib.clear(); attrib.update(...)`). -/
def Element.withAttrib (e : Element) (a : List (String × String)) : Element :=
  Element.mk e.tag a e.text e.tail e.children

mutual

/-- Number of nodes of an element tree (used as fuel for the recursions
below; defined mutually with its list version so that it is structural and
hence computable by the kernel). -/
def Element.size : Element → Nat
  | .mk _ _ _ _ cs => Element.sizeList cs + 1

def Element.sizeList : List Element → Nat
  | [] => 0
  | c :: cs => Element.size c + Element.sizeList cs

end

/-- The qualified name of the schema `annotation` element
(`'\x7bhttp://www.w3.org/2001/XMLSchema\x7dannotation'`). -/
def xsdAnnotation : String := "\x7bhttp://www.w3.org/2001/XMLSchema\x7dannotation"

/-- `SORTABLE_ELEMENTS` from `normxsd.py`. -/
def SORTABLE_ELEMENTS : List String :=
  ["\x7bhttp://www.w3.org/2001/XMLSchema\x7dall",
   "\x7bhttp://www.w3.org/2001/XMLSchema\x7dchoice",
   "\x7bhttp://www.w3.org/2001/XMLSchema\x7dsequence"]

/-- `remove_annotations`: `findall` collects the direct children whose tag is
the schema annotation tag, and each is removed, i.e. the child list is
filtered. -/
def remove_annotations (e : Element) : Element :=
  e.withChildren (e.children.filter (fun c => c.tag != xsdAnnotation))

/-- `strip_text`: `if element.text: element.text = element.text.strip()`. -/
def strip_text (e : Element) : Element :=
  if e.text = "" then e else e.withText (pyStrip e.text)

/-- `e.get('name', default='')`: dictionary lookup on the attribute mapping
with default. -/
def nameKeyA (attrib : List (String × String)) : String :=
  ((attrib.find? (fun kv => kv.1 == "name")).map (fun kv => kv.2)).getD ""

/-- The sort key of `sort_elements_by_name_attr`. -/
def nameKey (e : Element) : String := nameKeyA e.attrib

/-- `sort_elements_by_name_attr`:
`if element.tag in SORTABLE_ELEMENTS: element[:] = sorted(element, key=lambda e: e.get('name', default=''))`. -/
def sort_elements_by_name_attr (e : Element) : Element :=
  if e.tag ∈ SORTABLE_ELEMENTS then
    e.withChildren (isort nameKey strLe e.children)
  else e

/-- Python's comparison of `(key, value)` attribute pairs, as used by
`sorted(attrs.items())`: lexicographic on the pair. -/
def attrLe : (String × String) → (String × String) → Bool := lexLe strLe strLe

/-- `sort_attributes`: `attrs = element.attrib; if attrs: element.attrib.clear();
element.attrib.update(sorted(attrs.items()))`. -/
def sort_attributes (e : Element) : Element :=
  if e.attrib = [] then e
  else e.withAttrib (isort (fun kv => kv) attrLe e.attrib)

/-- `sort_elements_by_tag_name`: `element[:] = sorted(element, key=lambda e: e.tag)`. -/
def sort_elements_by_tag_name (e : Element) : Element :=
  e.withChildren (isort Element.tag strLe e.children)

/-- The rule list built in `transform`. -/
def transformations : List (Element → Element) :=
  [remove_annotations, strip_text, sort_elements_by_name_attr, sort_attributes]

/-- One pass of `transform_tree`'s rule loop
(`for transformation in transformations: element = transformation(element)`). -/
def applyRules (e : Element) : Element :=
  transformations.foldl (fun acc t => t acc) e

/-- Fuel-indexed form of `transform_tree` (the fuel only serves to make the
recursion structural; `transform_tree` below instantiates it with enough
fuel, and `transform_tree_eq` recovers the natural recursion equation). -/
def transformTreeFuel : Nat → Element → Element
  | 0, e => e
  | n + 1, e =>
    Element.mk (applyRules e).tag (applyRules e).attrib (applyRules e).text
      (applyRules e).tail
      ((applyRules e).children.map (transformTreeFuel n))

/-- `transform_tree`, specialised to the rule list that `transform` builds
(the only call site): apply each rule to the node in order, then recurse into
the (possibly modified) children.  The Python rules mutate in place and return
the same object, so the functional reading replaces each child by its
recursively transformed value. -/
def transform_tree (e : Element) : Element := transformTreeFuel (Element.size e) e

/-- The indentation string `'\n' + 2*level` spaces used by `ET.indent` when
`transform` calls it with `space='  '`. -/
def indentStr (level : Nat) : String := ⟨'\n' :: List.replicate (2 * level) ' '⟩

/-- The dedent step at the end of `ET.indent`'s `_indent_children` loop:
after the loop the variable `child` holds the last child, and its tail is
rewritten to this level's indentation if whitespace-only. -/
def dedentLast (level : Nat) : List Element → List Element
  | [] => []
  | [c] => [if pyStrip c.tail = "" then c.withTail (indentStr level) else c]
  | c :: rest => c :: dedentLast level rest

/-- Fuel-indexed form of `_indent_children` (see `indentChildren`). -/
def indentChildrenFuel : Nat → Nat → Element → Element
  | 0, _, e => e
  | n + 1, level, e =>
    Element.mk e.tag e.attrib
      (if e.text = "" ∨ pyStrip e.text = "" then indentStr (level + 1) else e.text)
      e.tail
      (dedentLast level (e.children.map (fun c =>
        let c1 := if c.children.isEmpty then c else indentChildrenFuel n (level + 1) c
        if c1.tail = "" ∨ pyStrip c1.tail = "" then c1.withTail (indentStr (level + 1))
        else c1)))

/-- `_indent_children(elem, level)` from `xml.etree.ElementTree.indent`
(with `space='  '`): set the element's text to the child indentation if
blank, recurse into children that themselves have children, set each
blank child tail to the child indentation, and dedent the last child's tail
to this level's indentation. -/
def indentChildren (level : Nat) (e : Element) : Element :=
  indentChildrenFuel (Element.size e) level e

/-- `format_tree`: `ET.indent(element, space='  ', level=0)`, which returns
immediately when the element has no children. -/
def format_tree (e : Element) : Element :=
  if e.children.isEmpty then e else indentChildren 0 e

/-- The tree part of `transform`: the recursive rule pass, then the tag sort
(applied to the root), then the indentation pass. -/
def transform_pipeline (e : Element) : Element :=
  format_tree (sort_elements_by_tag_name (transform_tree e))

/-- A path, as its list of components. -/
abbrev FsPath := List String

/-- A filesystem tree: a file with a name, or a directory with a name and an
ordered list of entries. -/
inductive FSNode where
  | file (name : String)
  | dir (name : String) (entries : List FSNode)

def FSNode.name : FSNode → String
  | .file n => n
  | .dir n _ => n

/-- `Path.is_file()` for an entry of the modelled tree. -/
def FSNode.isFile : FSNode → Bool
  | .file _ => true
  | .dir _ _ => false

/-- `Path.is_dir()` for an entry of the modelled tree. -/
def FSNode.isDir : FSNode → Bool
  | .file _ => false
  | .dir _ _ => true

mutual

def FSNode.size : FSNode → Nat
  | .file _ => 1
  | .dir _ es => FSNode.sizeList es + 1

def FSNode.sizeList : List FSNode → Nat
  | [] => 0
  | f :: fs => FSNode.size f + FSNode.sizeList fs

end

/-- The characters strictly after the last `'.'` of a name, together with the
characters before it (`none` when the name has no dot). -/
def splitLastDot : List Char → Option (List Char × List Char)
  | [] => none
  | c :: rest =>
    match splitLastDot rest with
    | some (b, a) => some (c :: b, a)
    | none => if c = '.' then some ([], rest) else none

/-- `pathlib.PurePath.suffix`: the extension `name[i:]` when `i`, the index of
the last dot, satisfies `0 < i < len(name) - 1`, else the empty string. -/
def pySuffix (name : String) : String :=
  match splitLastDot name.data with
  | some (b, a) => if b ≠ [] ∧ a ≠ [] then ⟨'.' :: a⟩ else ""
  | none => ""

/-- Fuel-indexed form of `iterfiles` (see `iterfiles` below). -/
def iterfilesFuel : Nat → FsPath → FSNode → Bool → List FsPath
  | 0, _, _, _ => []
  | _ + 1, p, .file _, _ => [p]
  | n + 1, p, .dir _ entries, r =>
    entries.flatMap (fun f =>
      (if f.isFile && (pySuffix f.name == ".xsd") then [p ++ [f.name]] else []) ++
      (if f.isDir && r then iterfilesFuel n (p ++ [f.name]) f r else []))

/-- `iterfiles(path, recursive)`: the root path itself when it is a file;
for a directory, in directory order, each child file with the `.xsd` suffix,
and, when `recursive` is set, recursively the files below each child
directory.  `p` is the path of `node`. -/
def iterfiles (p : FsPath) (node : FSNode) (r : Bool) : List FsPath :=
  iterfilesFuel (FSNode.size node) p node r

/-- `PurePath.relative_to`: the remaining components when `base` is an
initial segment of `p`; `None` models the `ValueError` Python raises
otherwise. -/
def relative_to (p base : FsPath) : Option FsPath :=
  if base.isPrefixOf p then some (p.drop base.length) else none

/-- `outputfile(input_path, output_path, input_file)`.  The booleans record
what the filesystem answers for `input_path.is_file()` and
`output_path.is_dir()`. -/
def outputfile (input_is_file output_is_dir : Bool)
    (input_path output_path input_file : FsPath) : Option FsPath :=
  if input_is_file && output_is_dir then some (output_path ++ [input_file.getLastD ""])
  else if input_is_file then some output_path
  else (relative_to input_file input_path).map (fun rel => output_path ++ rel)

/-- The validation in `parse_args` after resolving both paths to absolute
form: reject equal paths, and reject a file input whose containing directory
is the (existing) output directory.  The paths here are the absolute forms. -/
def parse_args_validate (input_path output_path : FsPath)
    (input_is_file output_is_dir : Bool) : Except String Unit :=
  if input_path = output_path then
    .error ("Input and output must not be the same")
  else if input_is_file && output_is_dir && (input_path.dropLast = output_path) then
    .error ("Input and output must not be in the same directory")
  else .ok ()

/-- The per-file loop of `main`: for each discovered file, if it lies under
the output root (`input_file.is_relative_to(args.output)`), record a skip and
continue; otherwise record the transform invocation with its computed output
path.  Returns (processed, skipped). -/
def runBatch (input_path output_path : FsPath) (input_is_file output_is_dir : Bool) :
    List FsPath → List (FsPath × Option FsPath) × List FsPath
  | [] => ([], [])
  | f :: rest =>
    let (ps, ss) := runBatch input_path output_path input_is_file output_is_dir rest
    if output_path.isPrefixOf f then (ps, f :: ss)
    else ((f, outputfile input_is_file output_is_dir input_path output_path f) :: ps, ss)

/-- `main`, abstracted over the filesystem: validate the configuration, then
discover the input files and process them one by one.  An `error` result
models `parser.error`, which terminates the run before any file is read. -/
def mainModel (input_path output_path : FsPath) (input_is_file output_is_dir : Bool)
    (root : FSNode) (recursive : Bool) :
    Except String (List (FsPath × Option FsPath) × List FsPath) :=
  match parse_args_validate input_path output_path input_is_file output_is_dir with
  | .error e => .error e
  | .ok _ => .ok (runBatch input_path output_path input_is_file output_is_dir
      (iterfiles input_path root recursive))

/-! ## Predicates and views used to state and prove the claims -/

/-- Fuel-indexed "strip every text" pass: the action of `transform_tree` on a
tree that is already normalised (proved below). -/
def stripAllFuel : Nat → Element → Element
  | 0, e => e
  | n + 1, e =>
    Element.mk e.tag e.attrib (pyStrip e.text) e.tail (e.children.map (stripAllFuel n))

/-- Strip the text of every node. -/
def stripAll (e : Element) : Element := stripAllFuel (Element.size e) e

/-- Distinctness of attribute keys (a Python `dict` cannot hold two equal
keys). -/
def keysNodupB : List (String × String) → Bool
  | [] => true
  | kv :: rest => !(rest.any (fun kv2 => kv2.1 == kv.1)) && keysNodupB rest

def wfAttrsFuel : Nat → Element → Bool
  | 0, _ => true
  | n + 1, e => keysNodupB e.attrib && e.children.all (wfAttrsFuel n)

/-- Every node's attribute mapping has pairwise-distinct keys, as every
element tree obtained by parsing an XML document does. -/
def wfAttrs (e : Element) : Bool := wfAttrsFuel (Element.size e) e

/-- Successive strings are in `strLe` order. -/
def chainLeB : List String → Bool
  | [] => true
  | [_] => true
  | a :: b :: rest => strLe a b && chainLeB (b :: rest)

def tagSortedAllFuel : Nat → Element → Bool
  | 0, _ => true
  | n + 1, e =>
    chainLeB (e.children.map Element.tag) && e.children.all (tagSortedAllFuel n)

/-- The property claimed of the pipeline output in C1: at every node of the
tree, the children are in ascending lexicographic order of qualified tag. -/
def tagSortedAll (e : Element) : Bool := tagSortedAllFuel (Element.size e) e

def hasAnnotationFuel : Nat → Element → Bool
  | 0, _ => false
  | n + 1, e => (e.tag == xsdAnnotation) || e.children.any (hasAnnotationFuel n)

/-- Does the tree contain, anywhere (root included), an element whose
qualified tag is the schema annotation tag? -/
def hasAnnotation (e : Element) : Bool := hasAnnotationFuel (Element.size e) e

def noAnnotChildrenAllFuel : Nat → Element → Bool
  | 0, _ => true
  | n + 1, e =>
    e.children.all (fun c => c.tag != xsdAnnotation) &&
      e.children.all (noAnnotChildrenAllFuel n)

/-- No node of the tree has a direct child with the annotation tag
(equivalently: no annotation element occurs strictly below the root). -/
def noAnnotChildrenAll (e : Element) : Bool :=
  noAnnotChildrenAllFuel (Element.size e) e

def attrKeysSortedAllFuel : Nat → Element → Bool
  | 0, _ => true
  | n + 1, e =>
    chainLeB (e.attrib.map Prod.fst) && e.children.all (attrKeysSortedAllFuel n)

/-- At every node of the tree, the attribute mapping iterates in ascending
lexicographic order of attribute qualified name. -/
def attrKeysSortedAll (e : Element) : Bool :=
  attrKeysSortedAllFuel (Element.size e) e

/-- The skeleton of an element: everything except texts and tails.  The
indentation pass `format_tree` only rewrites texts and tails, so it preserves
this view. -/
inductive Skel where
  | mk (tag : String) (attrib : List (String × String)) (kids : List Skel)

def Skel.tag : Skel → String
  | .mk t _ _ => t

def Skel.attrib : Skel → List (String × String)
  | .mk _ a _ => a

def Skel.kids : Skel → List Skel
  | .mk _ _ ks => ks

def skelFuel : Nat → Element → Skel
  | 0, e => Skel.mk e.tag e.attrib []
  | n + 1, e => Skel.mk e.tag e.attrib (e.children.map (skelFuel n))

def skel (e : Element) : Skel := skelFuel (Element.size e) e

/-- `nameKey` on the skeleton view. -/
def nameKeyS (s : Skel) : String := nameKeyA s.attrib

/-- No node of the skeleton has a direct kid with the annotation tag. -/
inductive SNoAnnot : Skel → Prop where
  | mk {s : Skel} : (∀ k ∈ s.kids, k.tag ≠ xsdAnnotation) →
      (∀ k ∈ s.kids, SNoAnnot k) → SNoAnnot s

/-- Every node's attribute list is sorted by Python's pair comparison. -/
inductive SAttrSorted : Skel → Prop where
  | mk {s : Skel} : s.attrib.Pairwise (fun a b => attrLe a b = true) →
      (∀ k ∈ s.kids, SAttrSorted k) → SAttrSorted s

/-- Every node with a sortable tag has its kids in ascending order of the
`name` attribute. -/
inductive SNameSorted : Skel → Prop where
  | mk {s : Skel} :
      (s.tag ∈ SORTABLE_ELEMENTS →
        s.kids.Pairwise (fun a b => strLe (nameKeyS a) (nameKeyS b) = true)) →
      (∀ k ∈ s.kids, SNameSorted k) → SNameSorted s

/-- The tag/name pair of a skeleton node: the key by which the pipeline
effectively orders the root's children. -/
def lexTagNameS (s : Skel) : String × String := (s.tag, nameKeyS s)

/-- The order in which the pipeline leaves the root's children: for a
sortable root, stably sorted by `(tag, name)`; otherwise stably sorted by
tag alone. -/
def SRootOrder (s : Skel) : Prop :=
  if s.tag ∈ SORTABLE_ELEMENTS then
    s.kids.Pairwise (fun a b => lexLe strLe strLe (lexTagNameS a) (lexTagNameS b) = true)
  else
    s.kids.Pairwise (fun a b => strLe a.tag b.tag = true)

/-- Every node's text is fixed by `str.strip()`. -/
inductive TextsStripped : Element → Prop where
  | mk {e : Element} : pyStrip e.text = e.text →
      (∀ c ∈ e.children, TextsStripped c) → TextsStripped e

/-- The tails that `_indent_children` at level `d` leaves on a child list:
every child's tail is the child indentation (the last child's is this level's
indentation) unless it carries non-whitespace content. -/
def TailsOK (d : Nat) : List Element → Prop
  | [] => True
  | [c] => c.tail = indentStr d ∨ pyStrip c.tail ≠ ""
  | c :: rest => (c.tail = indentStr (d + 1) ∨ pyStrip c.tail ≠ "") ∧ TailsOK d rest

/-- The text/tail shape `format_tree` leaves on a subtree rooted at depth
`d`: leaf texts are stripped, internal texts are the child indentation or
non-blank stripped content, and child tails are as in `TailsOK`.  (A node's
own tail is owned by its parent and is not constrained here.) -/
inductive Indented : Nat → Element → Prop where
  | mk {d : Nat} {e : Element} :
      (if e.children.isEmpty then pyStrip e.text = e.text
       else e.text = indentStr (d + 1) ∨ (pyStrip e.text = e.text ∧ e.text ≠ "")) →
      TailsOK d e.children →
      (∀ c ∈ e.children, Indented (d + 1) c) → Indented d e

/-- The normal form of pipeline outputs: annotation-free below the root,
attributes sorted everywhere, sortable non-root nodes name-sorted, the root's
children in the pipeline's final order, and texts/tails as the indentation
pass leaves them. -/
def NormalRoot (e : Element) : Prop :=
  SNoAnnot (skel e) ∧ SAttrSorted (skel e) ∧ (∀ k ∈ (skel e).kids, SNameSorted k) ∧
    SRootOrder (skel e) ∧ Indented 0 e

/-- The child list that the rule pass leaves on a node before recursing:
annotation children are filtered out, and for a sortable tag the rest is
name-sorted. -/
def ruleChildren (e : Element) : List Element :=
  if e.tag ∈ SORTABLE_ELEMENTS then
    isort nameKey strLe (e.children.filter (fun c => c.tag != xsdAnnotation))
  else e.children.filter (fun c => c.tag != xsdAnnotation)

/-! ## Concrete example trees for witnesses and counterexamples -/

/-- The sortable `sequence` tag. -/
def xsdSequence : String := "\x7bhttp://www.w3.org/2001/XMLSchema\x7dsequence"

/-- A `sequence` element with children named `b`, (missing), `a`, `c`. -/
def exC3 : Element :=
  Element.mk xsdSequence [] ("") ("")
    [Element.mk ("e1") [("name", "b")] ("") ("") [],
     Element.mk ("e2") [] ("") ("") [],
     Element.mk ("e3") [("name", "a")] ("") ("") [],
     Element.mk ("e4") [("name", "c")] ("") ("") []]

/-- A root whose grandchildren (`b`, `a`) are not in tag order: the pipeline's
tag sort touches only the root's children, so they stay unsorted. -/
def exC1 : Element :=
  Element.mk ("r") [] ("") ("")
    [Element.mk ("c") [] ("") ("")
      [Element.mk ("b") [] ("") ("") [], Element.mk ("a") [] ("") ("") []]]

/-- A document whose root element is itself a schema `annotation` element. -/
def exC4 : Element := Element.mk xsdAnnotation [] ("") ("") []

/-- A small well-formed tree used by the idempotence witness. -/
def exC2 : Element :=
  Element.mk ("root") [("z", "1"), ("a", "2")] (" hi ") ("")
    [Element.mk xsdSequence [] ("  ") ("")
      [Element.mk ("e") [("name", "b")] ("") ("") [],
       Element.mk ("e") [("name", "a")] ("") ("") []],
     Element.mk xsdAnnotation [] ("") ("") []]

/-- An element with no attributes and one with unsorted attributes. -/
def exC5 : Element := Element.mk ("n") [("z", "1"), ("a", "2")] ("") ("") []

def exC5empty : Element := Element.mk ("n") [] ("") ("") []

/-- A directory holding only `sub/b.xsd`. -/
def exFS : FSNode := FSNode.dir ("in") [FSNode.dir ("sub") [FSNode.file ("b.xsd")]]

/-! ## Theorems -/

theorem charLt_asymm {a b : Char} (h1 : charLt a b = true) (h2 : charLt b a = true) :
    False := by
  simp only [charLt, decide_eq_true_eq] at h1 h2
  omega

theorem charLt_trans {a b c : Char} (h1 : charLt a b = true) (h2 : charLt b c = true) :
    charLt a c = true := by
  simp only [charLt, decide_eq_true_eq] at *
  omega

theorem charLt_trichotomy (a b : Char) :
    charLt a b = true ∨ a = b ∨ charLt b a = true := by
  simp only [charLt, decide_eq_true_eq]
  rcases Nat.lt_trichotomy a.toNat b.toNat with h | h | h
  · exact Or.inl h
  · exact Or.inr (Or.inl (Char.eq_of_val_eq (UInt32.toNat.inj h)))
  · exact Or.inr (Or.inr h)

theorem charLt_irrefl (a : Char) : charLt a a = false := by
  simp [charLt]

theorem listLe_refl (l : List Char) : listLe l l = true := by
  induction l with
  | nil => rfl
  | cons a as ih => simp [listLe, charLt_irrefl, ih]

theorem listLe_total (a b : List Char) : listLe a b = true ∨ listLe b a = true := by
  induction a generalizing b with
  | nil => exact Or.inl rfl
  | cons x xs ih =>
    cases b with
    | nil => exact Or.inr rfl
    | cons y ys =>
      rcases charLt_trichotomy x y with h | h | h
      · exact Or.inl (by simp [listLe, h])
      · subst h
        rcases ih ys with h2 | h2
        · exact Or.inl (by simp [listLe, charLt_irrefl, h2])
        · exact Or.inr (by simp [listLe, charLt_irrefl, h2])
      · exact Or.inr (by simp [listLe, h])

theorem listLe_antisymm {a b : List Char} (h1 : listLe a b = true)
    (h2 : listLe b a = true) : a = b := by
  induction a generalizing b with
  | nil =>
    cases b with
    | nil => rfl
    | cons y ys => simp [listLe] at h2
  | cons x xs ih =>
    cases b with
    | nil => simp [listLe] at h1
    | cons y ys =>
      simp only [listLe] at h1 h2
      by_cases hxy : charLt x y = true
      · by_cases hyx : charLt y x = true
        · exact (charLt_asymm hxy hyx).elim
        · simp [hxy, hyx] at h2
          rcases h2 with ⟨h2, _⟩
          exact absurd hxy (by simp [h2, charLt_irrefl])
      · simp only [hxy, if_false] at h1
        by_cases he : x = y
        · subst he
          simp [charLt_irrefl] at h1 h2
          rw [ih h1 h2]
        · simp [he] at h1

theorem listLe_trans {a b c : List Char} (h1 : listLe a b = true)
    (h2 : listLe b c = true) : listLe a c = true := by
  induction a generalizing b c with
  | nil => rfl
  | cons x xs ih =>
    cases b with
    | nil => simp [listLe] at h1
    | cons y ys =>
      cases c with
      | nil => simp [listLe] at h2
      | cons z zs =>
        simp only [listLe] at h1 h2 ⊢
        by_cases hxy : charLt x y = true
        · by_cases hyz : charLt y z = true
          · simp [charLt_trans hxy hyz]
          · simp only [hyz, if_false] at h2
            by_cases hyez : y = z
            · subst hyez; simp [hxy]
            · simp [hyez] at h2
        · simp only [hxy, if_false] at h1
          by_cases hxey : x = y
          · subst hxey
            simp only [charLt_irrefl, if_false, if_pos rfl] at h1
            by_cases hyz : charLt x z = true
            · simp [hyz]
            · simp only [hyz, if_false] at h2 ⊢
              by_cases hyez : x = z
              · subst hyez; simp [charLt_irrefl] at h2 ⊢; exact ih h1 h2
              · simp [hyez] at h2
          · simp [hxey] at h1

theorem strLe_refl (a : String) : strLe a a = true := listLe_refl a.data

theorem strLe_total (a b : String) : strLe a b = true ∨ strLe b a = true :=
  listLe_total a.data b.data

theorem strLe_trans {a b c : String} (h1 : strLe a b = true) (h2 : strLe b c = true) :
    strLe a c = true := listLe_trans h1 h2

theorem strLe_antisymm {a b : String} (h1 : strLe a b = true) (h2 : strLe b a = true) :
    a = b := by
  cases a; cases b
  cases listLe_antisymm h1 h2
  rfl

section StableSortLemmas

variable {α : Type} {κ : Type}
variable {key : α → κ} {le : κ → κ → Bool}

theorem insortKey_perm (x : α) (l : List α) :
    (insortKey key le x l).Perm (x :: l) := by
  induction l with
  | nil => exact List.Perm.refl _
  | cons y ys ih =>
    simp only [insortKey]
    by_cases h : le (key x) (key y) = true
    · simp [h]
    · simp only [h, if_false]
      exact (List.Perm.cons y ih).trans (List.Perm.swap x y ys)

theorem isort_perm (l : List α) : (isort key le l).Perm l := by
  induction l with
  | nil => exact List.Perm.refl _
  | cons x xs ih =>
    exact (insortKey_perm x (isort key le xs)).trans (List.Perm.cons x ih)

theorem mem_isort {a : α} {l : List α} : a ∈ isort key le l ↔ a ∈ l :=
  (isort_perm l).mem_iff

theorem mem_insortKey {a x : α} {l : List α} :
    a ∈ insortKey key le x l ↔ a = x ∨ a ∈ l := by
  rw [(insortKey_perm x l).mem_iff]
  simp

theorem insortKey_pairwise
    (htot : ∀ a b : κ, le a b = true ∨ le b a = true)
    (htrans : ∀ a b c : κ, le a b = true → le b c = true → le a c = true)
    {x : α} {l : List α}
    (hl : l.Pairwise (fun a b => le (key a) (key b) = true)) :
    (insortKey key le x l).Pairwise (fun a b => le (key a) (key b) = true) := by
  induction l with
  | nil => simp [insortKey]
  | cons y ys ih =>
    rcases List.pairwise_cons.mp hl with ⟨hy, hys⟩
    simp only [insortKey]
    by_cases h : le (key x) (key y) = true
    · simp only [h, if_true]
      refine List.pairwise_cons.mpr ⟨?_, hl⟩
      intro b hb
      rcases List.mem_cons.mp hb with rfl | hb
      · exact h
      · exact htrans _ _ _ h (hy _ hb)
    · simp only [h, if_false]
      refine List.pairwise_cons.mpr ⟨?_, ih hys⟩
      intro b hb
      rcases mem_insortKey.mp hb with heq | hb
      · rw [heq]
        rcases htot (key x) (key y) with h2 | h2
        · exact absurd h2 h
        · exact h2
      · exact hy _ hb

theorem isort_pairwise
    (htot : ∀ a b : κ, le a b = true ∨ le b a = true)
    (htrans : ∀ a b c : κ, le a b = true → le b c = true → le a c = true)
    (l : List α) :
    (isort key le l).Pairwise (fun a b => le (key a) (key b) = true) := by
  induction l with
  | nil => simp [isort]
  | cons x xs ih => exact insortKey_pairwise htot htrans ih

theorem isort_eq_self
    {l : List α} (hl : l.Pairwise (fun a b => le (key a) (key b) = true)) :
    isort key le l = l := by
  induction l with
  | nil => rfl
  | cons x xs ih =>
    rcases List.pairwise_cons.mp hl with ⟨hx, hxs⟩
    have hxs' := ih hxs
    cases xs with
    | nil => rfl
    | cons y ys =>
      show insortKey key le x (isort key le (y :: ys)) = x :: y :: ys
      rw [hxs']
      simp only [insortKey]
      rw [if_pos (hx y (List.mem_cons_self y ys))]

theorem insortKey_filter [DecidableEq κ]
    (htot : ∀ a b : κ, le a b = true ∨ le b a = true)
    (x : α) (l : List α) (c : κ) :
    (insortKey key le x l).filter (fun a => decide (key a = c)) =
      if key x = c then x :: l.filter (fun a => decide (key a = c))
      else l.filter (fun a => decide (key a = c)) := by
  induction l with
  | nil =>
    by_cases h : key x = c <;> simp [insortKey, List.filter, h]
  | cons y ys ih =>
    simp only [insortKey]
    by_cases h : le (key x) (key y) = true
    · simp only [h, if_true]
      by_cases hx : key x = c <;> simp [List.filter_cons, hx]
    · rw [if_neg h]
      have hyx : key y ≠ key x := by
        intro he
        rcases htot (key x) (key x) with h2 | h2 <;>
          exact h (by rw [he]; exact h2)
      rw [List.filter_cons, List.filter_cons]
      by_cases hx : key x = c
      · have hy : (decide (key y = c)) = false := by
          simp only [decide_eq_false_iff_not]
          intro he
          exact hyx (he.trans hx.symm)
        rw [hy, if_pos hx]
        simp only [Bool.false_eq_true, if_false]
        rw [ih, if_pos hx]
      · simp only [ih, if_neg hx]

theorem isort_filter [DecidableEq κ]
    (htot : ∀ a b : κ, le a b = true ∨ le b a = true)
    (l : List α) (c : κ) :
    (isort key le l).filter (fun a => decide (key a = c)) =
      l.filter (fun a => decide (key a = c)) := by
  induction l with
  | nil => rfl
  | cons x xs ih =>
    show (insortKey key le x (isort key le xs)).filter _ = _
    rw [insortKey_filter htot, List.filter_cons]
    by_cases h : key x = c
    · rw [if_pos h, ih, if_pos (by simp [h])]
    · rw [if_neg h, ih, if_neg (by simp [h])]

/-- A stable sort's output is unique: two lists that are both sorted by the
key and both preserve the original relative order within each key class
(expressed by equal key-class filters) are equal. -/
theorem stable_sort_unique [DecidableEq κ]
    (hanti : ∀ a b : κ, le a b = true → le b a = true → a = b) :
    ∀ l₁ l₂ : List α,
      l₁.Pairwise (fun a b => le (key a) (key b) = true) →
      l₂.Pairwise (fun a b => le (key a) (key b) = true) →
      (∀ c : κ, l₁.filter (fun a => decide (key a = c)) =
        l₂.filter (fun a => decide (key a = c))) →
      l₁ = l₂ := by
  intro l₁
  induction l₁ with
  | nil =>
    intro l₂ _ _ hf
    cases l₂ with
    | nil => rfl
    | cons y t₂ =>
      have := hf (key y)
      rw [List.filter_cons] at this
      simp at this
  | cons x t₁ ih =>
    intro l₂ h₁ h₂ hf
    cases l₂ with
    | nil =>
      have := hf (key x)
      rw [List.filter_cons] at this
      simp at this
    | cons y t₂ =>
      rcases List.pairwise_cons.mp h₁ with ⟨hx1, ht₁⟩
      rcases List.pairwise_cons.mp h₂ with ⟨hy2, ht₂⟩
      have hymem : y ∈ (x :: t₁) := by
        have hy : y ∈ (y :: t₂).filter (fun a => decide (key a = key y)) :=
          List.mem_filter.mpr ⟨List.mem_cons_self y t₂, by simp⟩
        rw [← hf (key y)] at hy
        exact (List.mem_filter.mp hy).1
      have hxmem : x ∈ (y :: t₂) := by
        have hx : x ∈ (x :: t₁).filter (fun a => decide (key a = key x)) :=
          List.mem_filter.mpr ⟨List.mem_cons_self x t₁, by simp⟩
        rw [hf (key x)] at hx
        exact (List.mem_filter.mp hx).1
      have hxy : x = y := by
        rcases List.mem_cons.mp hymem with he | hy
        · exact he.symm
        · rcases List.mem_cons.mp hxmem with he | hx
          · exact he
          · have hk : key x = key y := hanti _ _ (hx1 y hy) (hy2 x hx)
            have := hf (key x)
            rw [List.filter_cons, List.filter_cons, if_pos (by simp),
              if_pos (by simp [hk])] at this
            exact (List.cons.injEq _ _ _ _ ▸ this).1
      subst hxy
      have htails : t₁ = t₂ := by
        refine ih t₂ ht₁ ht₂ ?_
        intro c
        have := hf c
        rw [List.filter_cons, List.filter_cons] at this
        by_cases hc : (decide (key x = c)) = true
        · rw [if_pos hc, if_pos hc] at this
          exact (List.cons.injEq _ _ _ _ ▸ this).2
        · rw [if_neg (by simp_all), if_neg (by simp_all)] at this
          exact this
      rw [htails]

theorem insortKey_map {β : Type} {g : β → α} {key' : β → κ}
    (hk : ∀ b, key (g b) = key' b) (x : β) (l : List β) :
    insortKey key le (g x) (l.map g) = (insortKey key' le x l).map g := by
  induction l with
  | nil => rfl
  | cons y ys ih =>
    simp only [List.map_cons, insortKey, hk]
    by_cases h : le (key' x) (key' y) = true
    · simp [h]
    · simp [h, ih]

theorem isort_map {β : Type} {g : β → α} {key' : β → κ}
    (hk : ∀ b, key (g b) = key' b) (l : List β) :
    isort key le (l.map g) = (isort key' le l).map g := by
  induction l with
  | nil => rfl
  | cons x xs ih =>
    show insortKey key le (g x) (isort key le (xs.map g)) = _
    rw [ih, insortKey_map hk]
    rfl

/-- Stability of the sort, in pairwise form: any relation `R` that holds
pairwise on the input holds in the output for every pair whose keys tie
(a tie is witnessed by the reverse comparison also holding). -/
theorem insortKey_pairwise_rel {R : α → α → Prop} {x : α} {l : List α}
    (hx : ∀ y ∈ l, R x y)
    (hl : l.Pairwise (fun a b => le (key b) (key a) = true → R a b)) :
    (insortKey key le x l).Pairwise (fun a b => le (key b) (key a) = true → R a b) := by
  induction l with
  | nil => simp [insortKey]
  | cons y ys ih =>
    rcases List.pairwise_cons.mp hl with ⟨hy, hys⟩
    simp only [insortKey]
    by_cases h : le (key x) (key y) = true
    · simp only [h, if_true]
      refine List.pairwise_cons.mpr ⟨?_, hl⟩
      intro b hb _
      exact hx b hb
    · simp only [h, if_false]
      refine List.pairwise_cons.mpr ⟨?_, ih (fun z hz => hx z (List.mem_cons_of_mem y hz)) hys⟩
      intro b hb
      rcases mem_insortKey.mp hb with heq | hb
      · rw [heq]
        intro h2
        exact absurd h2 h
      · exact hy b hb

theorem isort_pairwise_rel {R : α → α → Prop} {l : List α} (hl : l.Pairwise R) :
    (isort key le l).Pairwise (fun a b => le (key b) (key a) = true → R a b) := by
  induction l with
  | nil => simp [isort]
  | cons x xs ih =>
    rcases List.pairwise_cons.mp hl with ⟨hx, hxs⟩
    exact insortKey_pairwise_rel (fun y hy => hx y (mem_isort.mp hy)) (ih hxs)

end StableSortLemmas

section LexCombLemmas

variable {κ₂ κ₁ : Type}
variable [DecidableEq κ₂] {le₂ : κ₂ → κ₂ → Bool} {le₁ : κ₁ → κ₁ → Bool}

theorem lexLe_total
    (htot₂ : ∀ a b : κ₂, le₂ a b = true ∨ le₂ b a = true)
    (htot₁ : ∀ a b : κ₁, le₁ a b = true ∨ le₁ b a = true)
    (a b : κ₂ × κ₁) :
    lexLe le₂ le₁ a b = true ∨ lexLe le₂ le₁ b a = true := by
  unfold lexLe
  by_cases h : a.1 = b.1
  · rw [if_pos h, if_pos h.symm]
    exact htot₁ a.2 b.2
  · rw [if_neg h, if_neg (fun he => h he.symm)]
    exact htot₂ a.1 b.1

theorem lexLe_trans
    (htrans₂ : ∀ a b c : κ₂, le₂ a b = true → le₂ b c = true → le₂ a c = true)
    (hanti₂ : ∀ a b : κ₂, le₂ a b = true → le₂ b a = true → a = b)
    (htrans₁ : ∀ a b c : κ₁, le₁ a b = true → le₁ b c = true → le₁ a c = true)
    (a b c : κ₂ × κ₁) (h1 : lexLe le₂ le₁ a b = true) (h2 : lexLe le₂ le₁ b c = true) :
    lexLe le₂ le₁ a c = true := by
  unfold lexLe at *
  by_cases hab : a.1 = b.1
  · by_cases hbc : b.1 = c.1
    · rw [if_pos hab] at h1
      rw [if_pos hbc] at h2
      rw [if_pos (hab.trans hbc)]
      exact htrans₁ _ _ _ h1 h2
    · rw [if_neg hbc] at h2
      rw [if_neg (fun he => hbc (hab.symm.trans he)), hab]
      exact h2
  · by_cases hbc : b.1 = c.1
    · rw [if_neg hab] at h1
      rw [if_neg (fun he => hab (he.trans hbc.symm)), ← hbc]
      exact h1
    · rw [if_neg hab] at h1
      rw [if_neg hbc] at h2
      have hac : a.1 ≠ c.1 := by
        intro he
        exact hab (hanti₂ _ _ h1 (he ▸ h2))
      rw [if_neg hac]
      exact htrans₂ _ _ _ h1 h2

theorem lexLe_anti
    (hanti₂ : ∀ a b : κ₂, le₂ a b = true → le₂ b a = true → a = b)
    (hanti₁ : ∀ a b : κ₁, le₁ a b = true → le₁ b a = true → a = b)
    (a b : κ₂ × κ₁) (h1 : lexLe le₂ le₁ a b = true) (h2 : lexLe le₂ le₁ b a = true) :
    a = b := by
  unfold lexLe at *
  by_cases hab : a.1 = b.1
  · rw [if_pos hab] at h1
    rw [if_pos hab.symm] at h2
    exact Prod.ext hab (hanti₁ _ _ h1 h2)
  · rw [if_neg hab] at h1
    rw [if_neg (fun he => hab he.symm)] at h2
    exact absurd (hanti₂ _ _ h1 h2) hab

/-- Two successive stable sorts equal one stable sort by the lexicographic
pair of keys (second pass first). -/
theorem isort_isort {α : Type} [DecidableEq κ₁]
    {key₁ : α → κ₁} {key₂ : α → κ₂}
    (htot₂ : ∀ a b : κ₂, le₂ a b = true ∨ le₂ b a = true)
    (htrans₂ : ∀ a b c : κ₂, le₂ a b = true → le₂ b c = true → le₂ a c = true)
    (hanti₂ : ∀ a b : κ₂, le₂ a b = true → le₂ b a = true → a = b)
    (htot₁ : ∀ a b : κ₁, le₁ a b = true ∨ le₁ b a = true)
    (htrans₁ : ∀ a b c : κ₁, le₁ a b = true → le₁ b c = true → le₁ a c = true)
    (hanti₁ : ∀ a b : κ₁, le₁ a b = true → le₁ b a = true → a = b)
    (l : List α) :
    isort key₂ le₂ (isort key₁ le₁ l) =
      isort (fun a => (key₂ a, key₁ a)) (lexLe le₂ le₁) l := by
  apply @stable_sort_unique _ _ (fun a => (key₂ a, key₁ a)) (lexLe le₂ le₁) _
    (lexLe_anti hanti₂ hanti₁)
  · -- the composed sort is sorted for the lexicographic key
    have h2 := @isort_pairwise _ _ key₂ le₂ htot₂ htrans₂ (isort key₁ le₁ l)
    have h1 := @isort_pairwise _ _ key₁ le₁ htot₁ htrans₁ l
    have h3 := @isort_pairwise_rel _ _ key₂ le₂ _ _ h1
    refine (h2.and h3).imp ?_
    intro a b hab
    rcases hab with ⟨hab2, hab1⟩
    unfold lexLe
    by_cases he : key₂ a = key₂ b
    · rw [if_pos he]
      apply hab1
      rw [he]
      rcases htot₂ (key₂ b) (key₂ b) with h | h <;> exact h
    · rw [if_neg he]
      exact hab2
  · exact isort_pairwise (lexLe_total htot₂ htot₁) (lexLe_trans htrans₂ hanti₂ htrans₁) l
  · intro c
    rw [isort_filter (lexLe_total htot₂ htot₁)]
    have hsplit : ∀ m : List α,
        m.filter (fun a => decide ((key₂ a, key₁ a) = c)) =
          (m.filter (fun a => decide (key₂ a = c.1))).filter
            (fun a => decide (key₁ a = c.2)) := by
      intro m
      rw [List.filter_filter]
      apply List.filter_congr
      intro a _
      rcases c with ⟨c2, c1⟩
      by_cases h2 : key₂ a = c2 <;> by_cases h1 : key₁ a = c1 <;>
        simp [h1, h2]
    rw [hsplit, hsplit]
    rw [isort_filter htot₂]
    have hswap : ∀ m : List α,
        (m.filter (fun a => decide (key₂ a = c.1))).filter
            (fun a => decide (key₁ a = c.2)) =
          (m.filter (fun a => decide (key₁ a = c.2))).filter
            (fun a => decide (key₂ a = c.1)) := by
      intro m
      rw [List.filter_filter, List.filter_filter]
      apply List.filter_congr
      intro a _
      rw [Bool.and_comm]
    rw [hswap, isort_filter htot₁, ← hswap]

/-- Applying the two-pass stable sort twice gives the same list as applying
it once. -/
theorem isort_isort_idem {α : Type} [DecidableEq κ₁]
    {key₁ : α → κ₁} {key₂ : α → κ₂}
    (htot₂ : ∀ a b : κ₂, le₂ a b = true ∨ le₂ b a = true)
    (htrans₂ : ∀ a b c : κ₂, le₂ a b = true → le₂ b c = true → le₂ a c = true)
    (hanti₂ : ∀ a b : κ₂, le₂ a b = true → le₂ b a = true → a = b)
    (htot₁ : ∀ a b : κ₁, le₁ a b = true ∨ le₁ b a = true)
    (htrans₁ : ∀ a b c : κ₁, le₁ a b = true → le₁ b c = true → le₁ a c = true)
    (hanti₁ : ∀ a b : κ₁, le₁ a b = true → le₁ b a = true → a = b)
    (l : List α) :
    isort key₂ le₂ (isort key₁ le₁ (isort key₂ le₂ (isort key₁ le₁ l))) =
      isort key₂ le₂ (isort key₁ le₁ l) := by
  rw [isort_isort htot₂ htrans₂ hanti₂ htot₁ htrans₁ hanti₁,
    isort_isort htot₂ htrans₂ hanti₂ htot₁ htrans₁ hanti₁]
  exact isort_eq_self
    (isort_pairwise (lexLe_total htot₂ htot₁) (lexLe_trans htrans₂ hanti₂ htrans₁) l)

end LexCombLemmas

theorem dropWhile_head_false {α : Type} {p : α → Bool} {l xs : List α} {x : α}
    (h : l.dropWhile p = x :: xs) : p x = false := by
  induction l with
  | nil => simp [List.dropWhile] at h
  | cons y ys ih =>
    rw [List.dropWhile_cons] at h
    by_cases hy : p y = true
    · rw [if_pos hy] at h
      exact ih h
    · rw [if_neg hy] at h
      cases h
      simpa using hy

theorem dropWhile_idem {α : Type} (p : α → Bool) (l : List α) :
    (l.dropWhile p).dropWhile p = l.dropWhile p := by
  cases h : l.dropWhile p with
  | nil => rfl
  | cons x xs =>
    rw [List.dropWhile_cons, if_neg (by simp [dropWhile_head_false h])]

theorem dropWhile_trimList (l : List Char) :
    (trimList l).dropWhile isPySpace = trimList l := by
  unfold trimList
  cases hA : l.dropWhile isPySpace with
  | nil => simp
  | cons a as =>
    have ha : isPySpace a = false := dropWhile_head_false hA
    have hsplit : ∃ d, (a :: as).reverse.dropWhile isPySpace = d ++ [a] := by
      rw [List.reverse_cons, List.dropWhile_append]
      by_cases hd : (as.reverse.dropWhile isPySpace).isEmpty = true
      · rw [if_pos hd]
        exact ⟨[], by simp [List.dropWhile_cons, ha]⟩
      · rw [if_neg hd]
        exact ⟨as.reverse.dropWhile isPySpace, rfl⟩
    rcases hsplit with ⟨d, hd⟩
    rw [hd]
    simp [List.reverse_append, List.dropWhile_cons, ha]

theorem dropWhile_trimList_reverse (l : List Char) :
    (trimList l).reverse.dropWhile isPySpace = (trimList l).reverse := by
  unfold trimList
  rw [List.reverse_reverse]
  exact dropWhile_idem _ _

/-- `str.strip()` is idempotent (on the character-list level). -/
theorem trimList_idem (l : List Char) : trimList (trimList l) = trimList l := by
  conv_lhs => rw [trimList]
  rw [dropWhile_trimList, dropWhile_trimList_reverse, List.reverse_reverse]

theorem pyStrip_idem (s : String) : pyStrip (pyStrip s) = pyStrip s := by
  unfold pyStrip
  rw [trimList_idem]

theorem pyStrip_empty : pyStrip "" = "" := rfl

theorem trimList_of_all_space {l : List Char} (h : ∀ c ∈ l, isPySpace c = true) :
    trimList l = [] := by
  unfold trimList
  rw [List.dropWhile_eq_nil_iff.mpr h]
  rfl

theorem string_data_eq {a b : String} (h : a.data = b.data) : a = b := by
  cases a; cases b; cases h; rfl

@[simp] theorem Element.tag_mk (t a x l cs) : (Element.mk t a x l cs).tag = t := rfl

@[simp] theorem Element.attrib_mk (t a x l cs) : (Element.mk t a x l cs).attrib = a := rfl

@[simp] theorem Element.text_mk (t a x l cs) : (Element.mk t a x l cs).text = x := rfl

@[simp] theorem Element.tail_mk (t a x l cs) : (Element.mk t a x l cs).tail = l := rfl

@[simp] theorem Element.children_mk (t a x l cs) : (Element.mk t a x l cs).children = cs := rfl

theorem Element.eta (e : Element) :
    Element.mk e.tag e.attrib e.text e.tail e.children = e := by
  cases e; rfl

@[simp] theorem Element.withChildren_spec (e : Element) (cs) :
    (e.withChildren cs).tag = e.tag ∧ (e.withChildren cs).attrib = e.attrib ∧
    (e.withChildren cs).text = e.text ∧ (e.withChildren cs).tail = e.tail ∧
    (e.withChildren cs).children = cs := by
  cases e; exact ⟨rfl, rfl, rfl, rfl, rfl⟩

theorem Element.size_le_sizeList {c : Element} : ∀ {cs : List Element}, c ∈ cs →
    Element.size c ≤ Element.sizeList cs := by
  intro cs h
  induction cs with
  | nil => cases h
  | cons x xs ih =>
    rcases List.mem_cons.mp h with rfl | h2
    · simp only [Element.sizeList]
      omega
    · have := ih h2
      simp only [Element.sizeList]
      omega

theorem Element.size_lt_of_mem {e c : Element} (h : c ∈ e.children) :
    Element.size c < Element.size e := by
  cases e with
  | mk t a x l cs =>
    simp only [Element.children_mk] at h
    have := Element.size_le_sizeList h
    simp only [Element.size]
    omega

theorem Element.size_pos (e : Element) : 0 < Element.size e := by
  cases e with
  | mk t a x l cs =>
    simp only [Element.size]
    omega

theorem applyRules_eq (e : Element) :
    applyRules e =
      sort_attributes (sort_elements_by_name_attr (strip_text (remove_annotations e))) := rfl

theorem children_sort_attributes (e : Element) :
    (sort_attributes e).children = e.children := by
  unfold sort_attributes
  by_cases h : e.attrib = []
  · rw [if_pos h]
  · rw [if_neg h]
    cases e; rfl

theorem mem_children_sort_elements_by_name_attr {c e : Element}
    (h : c ∈ (sort_elements_by_name_attr e).children) : c ∈ e.children := by
  unfold sort_elements_by_name_attr at h
  by_cases hs : e.tag ∈ SORTABLE_ELEMENTS
  · rw [if_pos hs] at h
    cases e
    exact mem_isort.mp h
  · rwa [if_neg hs] at h

theorem children_strip_text (e : Element) : (strip_text e).children = e.children := by
  unfold strip_text
  by_cases h : e.text = ""
  · rw [if_pos h]
  · rw [if_neg h]
    cases e; rfl

theorem mem_applyRules_children {c e : Element}
    (h : c ∈ (applyRules e).children) : c ∈ e.children := by
  rw [applyRules_eq, children_sort_attributes] at h
  have h2 := mem_children_sort_elements_by_name_attr h
  rw [children_strip_text] at h2
  unfold remove_annotations at h2
  cases e with
  | mk t a x l cs =>
    simp only [Element.withChildren, Element.children_mk] at h2 ⊢
    exact (List.mem_filter.mp h2).1

theorem size_applyRules_children {c e : Element}
    (h : c ∈ (applyRules e).children) : Element.size c < Element.size e :=
  Element.size_lt_of_mem (mem_applyRules_children h)

theorem transformTreeFuel_congr :
    ∀ {n m : Nat} {e : Element}, Element.size e ≤ n → Element.size e ≤ m →
      transformTreeFuel n e = transformTreeFuel m e := by
  intro n
  induction n using Nat.strong_induction_on with
  | _ n ih =>
    intro m e hn hm
    have hpos := Element.size_pos e
    cases n with
    | zero => omega
    | succ n' =>
      cases m with
      | zero => omega
      | succ m' =>
        simp only [transformTreeFuel]
        congr 1
        apply List.map_congr_left
        intro c hc
        have hlt : Element.size c < Element.size e := size_applyRules_children hc
        exact ih n' (by omega) (by omega) (by omega)

theorem transform_tree_eq (e : Element) :
    transform_tree e =
      Element.mk (applyRules e).tag (applyRules e).attrib (applyRules e).text
        (applyRules e).tail ((applyRules e).children.map transform_tree) := by
  unfold transform_tree
  have hpos := Element.size_pos e
  rcases hn : Element.size e with _ | n
  · omega
  · simp only [transformTreeFuel]
    congr 1
    apply List.map_congr_left
    intro c hc
    have hlt : Element.size c < Element.size e := size_applyRules_children hc
    exact transformTreeFuel_congr (by omega) (by omega)

theorem indentChildrenFuel_congr :
    ∀ {n m level : Nat} {e : Element}, Element.size e ≤ n → Element.size e ≤ m →
      indentChildrenFuel n level e = indentChildrenFuel m level e := by
  intro n
  induction n using Nat.strong_induction_on with
  | _ n ih =>
    intro m level e hn hm
    have hpos := Element.size_pos e
    cases n with
    | zero => omega
    | succ n' =>
      cases m with
      | zero => omega
      | succ m' =>
        simp only [indentChildrenFuel]
        congr 1
        apply congrArg
        apply List.map_congr_left
        intro c hc
        have hlt : Element.size c < Element.size e := Element.size_lt_of_mem hc
        by_cases hl : c.children.isEmpty = true
        · simp only [if_pos hl]
        · rw [if_neg hl, if_neg hl,
            show indentChildrenFuel n' (level + 1) c = indentChildrenFuel m' (level + 1) c
              from ih n' (by omega) (by omega) (by omega)]

theorem indentChildren_eq (level : Nat) (e : Element) :
    indentChildren level e =
      Element.mk e.tag e.attrib
        (if e.text = "" ∨ pyStrip e.text = "" then indentStr (level + 1) else e.text)
        e.tail
        (dedentLast level (e.children.map (fun c =>
          let c1 := if c.children.isEmpty then c else indentChildren (level + 1) c
          if c1.tail = "" ∨ pyStrip c1.tail = "" then c1.withTail (indentStr (level + 1))
          else c1))) := by
  unfold indentChildren
  have hpos := Element.size_pos e
  rcases hn : Element.size e with _ | n
  · omega
  · simp only [indentChildrenFuel]
    congr 1
    apply congrArg
    apply List.map_congr_left
    intro c hc
    have hlt : Element.size c < Element.size e := Element.size_lt_of_mem hc
    by_cases hl : c.children.isEmpty = true
    · simp only [if_pos hl]
    · rw [if_neg hl, if_neg hl,
        show indentChildrenFuel n (level + 1) c = indentChildrenFuel (Element.size c) (level + 1) c
          from indentChildrenFuel_congr (by omega) (by omega)]

theorem FSNode.sizeF_le_sizeList {f : FSNode} : ∀ {fs : List FSNode}, f ∈ fs →
    FSNode.size f ≤ FSNode.sizeList fs := by
  intro fs h
  induction fs with
  | nil => cases h
  | cons x xs ih =>
    rcases List.mem_cons.mp h with rfl | h2
    · simp only [FSNode.sizeList]
      omega
    · have := ih h2
      simp only [FSNode.sizeList]
      omega

theorem FSNode.sizeF_pos (f : FSNode) : 0 < FSNode.size f := by
  cases f <;> simp [FSNode.size]

theorem iterfilesFuel_congr :
    ∀ {n m : Nat} {p : FsPath} {f : FSNode} {r : Bool},
      FSNode.size f ≤ n → FSNode.size f ≤ m →
      iterfilesFuel n p f r = iterfilesFuel m p f r := by
  intro n
  induction n using Nat.strong_induction_on with
  | _ n ih =>
    intro m p f r hn hm
    have hpos := FSNode.sizeF_pos f
    cases n with
    | zero => omega
    | succ n' =>
      cases m with
      | zero => omega
      | succ m' =>
        cases f with
        | file nm => rfl
        | dir nm entries =>
          simp only [iterfilesFuel]
          apply List.flatMap_congr
          intro g hg
          have hle : FSNode.size g ≤ FSNode.sizeList entries :=
            FSNode.sizeF_le_sizeList hg
          have : FSNode.sizeList entries + 1 = FSNode.size (FSNode.dir nm entries) := rfl
          congr 1
          by_cases hd : (g.isDir && r) = true
          · rw [if_pos hd, if_pos hd,
              show iterfilesFuel n' (p ++ [g.name]) g r = iterfilesFuel m' (p ++ [g.name]) g r
                from ih n' (by omega) (by simp [FSNode.size] at *; omega)
                  (by simp [FSNode.size] at *; omega)]
          · rw [if_neg hd, if_neg hd]

theorem iterfiles_file (p : FsPath) (nm : String) (r : Bool) :
    iterfiles p (.file nm) r = [p] := rfl

theorem iterfiles_dir (p : FsPath) (nm : String) (entries : List FSNode) (r : Bool) :
    iterfiles p (.dir nm entries) r =
      entries.flatMap (fun f =>
        (if f.isFile && (pySuffix f.name == ".xsd") then [p ++ [f.name]] else []) ++
        (if f.isDir && r then iterfiles (p ++ [f.name]) f r else [])) := by
  unfold iterfiles
  have hpos := FSNode.sizeF_pos (FSNode.dir nm entries)
  rcases hn : FSNode.size (FSNode.dir nm entries) with _ | n
  · omega
  · simp only [iterfilesFuel]
    apply List.flatMap_congr
    intro g hg
    have hle : FSNode.size g ≤ FSNode.sizeList entries := FSNode.sizeF_le_sizeList hg
    congr 1
    by_cases hd : (g.isDir && r) = true
    · rw [if_pos hd, if_pos hd,
        show iterfilesFuel n (p ++ [g.name]) g r = iterfilesFuel (FSNode.size g) (p ++ [g.name]) g r
          from iterfilesFuel_congr (by simp [FSNode.size] at hn; omega) (le_refl _)]
    · rw [if_neg hd, if_neg hd]

/-! ### Normal forms of the per-node rules -/

theorem remove_annotations_mk (t a x l cs) :
    remove_annotations (Element.mk t a x l cs) =
      Element.mk t a x l (cs.filter (fun c => c.tag != xsdAnnotation)) := rfl

theorem strip_text_mk (t a x l cs) :
    strip_text (Element.mk t a x l cs) = Element.mk t a (pyStrip x) l cs := by
  unfold strip_text
  by_cases h : (Element.mk t a x l cs).text = ""
  · rw [if_pos h]
    simp only [Element.text_mk] at h
    rw [h]
    rfl
  · rw [if_neg h]
    rfl

theorem sort_elements_by_name_attr_mk (t a x l cs) :
    sort_elements_by_name_attr (Element.mk t a x l cs) =
      Element.mk t a x l
        (if t ∈ SORTABLE_ELEMENTS then isort nameKey strLe cs else cs) := by
  unfold sort_elements_by_name_attr
  by_cases h : t ∈ SORTABLE_ELEMENTS
  · rw [if_pos (by simpa using h), if_pos h]
    rfl
  · rw [if_neg (by simpa using h), if_neg h]

theorem sort_attributes_mk (t a x l cs) :
    sort_attributes (Element.mk t a x l cs) =
      Element.mk t (isort (fun kv => kv) attrLe a) x l cs := by
  unfold sort_attributes
  by_cases h : a = []
  · rw [if_pos (by simpa using h), h]
    rfl
  · rw [if_neg (by simpa using h)]
    rfl

/-- The combined effect of the rule list on one node: the tag and tail are
untouched, attributes get sorted, the text gets stripped, and the children
get the annotation filter and, for sortable tags, the name sort. -/
theorem applyRules_spec (e : Element) :
    applyRules e =
      Element.mk e.tag (isort (fun kv => kv) attrLe e.attrib) (pyStrip e.text) e.tail
        (if e.tag ∈ SORTABLE_ELEMENTS then
          isort nameKey strLe (e.children.filter (fun c => c.tag != xsdAnnotation))
         else e.children.filter (fun c => c.tag != xsdAnnotation)) := by
  cases e with
  | mk t a x l cs =>
    rw [applyRules_eq, remove_annotations_mk, strip_text_mk,
      sort_elements_by_name_attr_mk, sort_attributes_mk]
    rfl

/-- `transform_tree` in terms of the original node. -/
theorem transform_tree_spec (e : Element) :
    transform_tree e =
      Element.mk e.tag (isort (fun kv => kv) attrLe e.attrib) (pyStrip e.text) e.tail
        ((if e.tag ∈ SORTABLE_ELEMENTS then
            isort nameKey strLe (e.children.filter (fun c => c.tag != xsdAnnotation))
          else e.children.filter (fun c => c.tag != xsdAnnotation)).map
            transform_tree) := by
  rw [transform_tree_eq, applyRules_spec]
  rfl

theorem transform_tree_tag (e : Element) : (transform_tree e).tag = e.tag := by
  rw [transform_tree_spec]
  rfl

theorem transform_tree_attrib (e : Element) :
    (transform_tree e).attrib = isort (fun kv => kv) attrLe e.attrib := by
  rw [transform_tree_spec]
  rfl

/-! ### The `strLe` and `attrLe` order packages -/

theorem strLe_trans3 : ∀ a b c : String, strLe a b = true → strLe b c = true →
    strLe a c = true := fun _ _ _ h1 h2 => strLe_trans h1 h2

theorem strLe_antisymm2 : ∀ a b : String, strLe a b = true → strLe b a = true →
    a = b := fun _ _ h1 h2 => strLe_antisymm h1 h2

theorem attrLe_total (a b : String × String) : attrLe a b = true ∨ attrLe b a = true := by
  unfold attrLe
  exact lexLe_total strLe_total strLe_total a b

theorem attrLe_trans (a b c : String × String) (h1 : attrLe a b = true)
    (h2 : attrLe b c = true) : attrLe a c = true := by
  unfold attrLe at h1 h2 ⊢
  exact lexLe_trans strLe_trans3 strLe_antisymm2 strLe_trans3 a b c h1 h2

theorem attrLe_anti (a b : String × String) (h1 : attrLe a b = true)
    (h2 : attrLe b a = true) : a = b := by
  unfold attrLe at h1 h2
  exact lexLe_anti strLe_antisymm2 strLe_antisymm2 a b h1 h2

theorem chainLeB_of_pairwise :
    ∀ {l : List String}, l.Pairwise (fun a b => strLe a b = true) → chainLeB l = true := by
  intro l h
  induction l with
  | nil => rfl
  | cons a rest ih =>
    rcases List.pairwise_cons.mp h with ⟨ha, hrest⟩
    cases rest with
    | nil => rfl
    | cons b rest2 =>
      show (strLe a b && chainLeB (b :: rest2)) = true
      rw [ha b (List.mem_cons_self b rest2), ih hrest]
      rfl

/-! ### Claims C10 and C3: the two child sorts -/

/-- C10: `sort_elements_by_name_attr` and `sort_elements_by_tag_name` only
permute the existing children — the multiset of child subtrees is unchanged —
and leave the element's tag, attributes, text and tail untouched. -/
theorem claim10_sorts_permute_children (e : Element) :
    ((sort_elements_by_name_attr e).children.Perm e.children ∧
      (sort_elements_by_name_attr e).tag = e.tag ∧
      (sort_elements_by_name_attr e).attrib = e.attrib ∧
      (sort_elements_by_name_attr e).text = e.text ∧
      (sort_elements_by_name_attr e).tail = e.tail) ∧
    ((sort_elements_by_tag_name e).children.Perm e.children ∧
      (sort_elements_by_tag_name e).tag = e.tag ∧
      (sort_elements_by_tag_name e).attrib = e.attrib ∧
      (sort_elements_by_tag_name e).text = e.text ∧
      (sort_elements_by_tag_name e).tail = e.tail) := by
  cases e with
  | mk t a x l cs =>
    constructor
    · rw [sort_elements_by_name_attr_mk]
      refine ⟨?_, rfl, rfl, rfl, rfl⟩
      by_cases h : t ∈ SORTABLE_ELEMENTS
      · rw [if_pos h]
        exact isort_perm cs
      · rw [if_neg h]
    · refine ⟨?_, rfl, rfl, rfl, rfl⟩
      exact isort_perm cs

/-- C3: on an element whose tag is one of the three sortable schema tags,
`sort_elements_by_name_attr` replaces the children by the same children
stably sorted in ascending order of their `name` attribute (a missing `name`
reads as `""`, which precedes every string); on any other tag it is the
identity. -/
theorem claim3_sort_elements_by_name_attr (e : Element) :
    (e.tag ∈ SORTABLE_ELEMENTS →
      (sort_elements_by_name_attr e).children = isort nameKey strLe e.children ∧
      (sort_elements_by_name_attr e).children.Pairwise
        (fun a b => strLe (nameKey a) (nameKey b) = true) ∧
      (∀ c : String,
        (sort_elements_by_name_attr e).children.filter (fun u => decide (nameKey u = c)) =
          e.children.filter (fun u => decide (nameKey u = c))) ∧
      (sort_elements_by_name_attr e).children.Perm e.children) ∧
    (e.tag ∉ SORTABLE_ELEMENTS → sort_elements_by_name_attr e = e) ∧
    (∀ u : Element, u.attrib.find? (fun kv => kv.1 == "name") = none → nameKey u = "") ∧
    (∀ s : String, strLe ("") s = true) := by
  refine ⟨?_, ?_, ?_, ?_⟩
  · intro hs
    have hck : (sort_elements_by_name_attr e).children = isort nameKey strLe e.children := by
      cases e with
      | mk t a x l cs =>
        rw [sort_elements_by_name_attr_mk]
        simp only [Element.children_mk]
        rw [if_pos (by simpa using hs)]
    refine ⟨hck, ?_, ?_, ?_⟩
    · rw [hck]
      exact isort_pairwise strLe_total strLe_trans3 e.children
    · intro c
      rw [hck]
      exact isort_filter strLe_total e.children c
    · rw [hck]
      exact isort_perm e.children
  · intro hs
    unfold sort_elements_by_name_attr
    rw [if_neg hs]
  · intro u hu
    unfold nameKey nameKeyA
    rw [hu]
    rfl
  · intro s
    rfl

/-- Witness for C3 at a concrete `sequence` element with child names
`b`, (missing), `a`, `c`: the theorem applies, and the resulting name order is
`"", "a", "b", "c"` — the nameless child first. -/
theorem claim3_witness :
    ((sort_elements_by_name_attr exC3).children.Pairwise
      (fun a b => strLe (nameKey a) (nameKey b) = true)) ∧
    (sort_elements_by_name_attr exC3).children.map nameKey = [(""), ("a"), ("b"), ("c")] :=
  ⟨(((claim3_sort_elements_by_name_attr exC3).1 (by decide)).2).1, by decide⟩

/-! ### Claims C6-C9: file discovery, path mapping, validation, skipping -/

theorem isPrefixOf_append_self (l t : List String) : l.isPrefixOf (l ++ t) = true := by
  induction l with
  | nil => simp [List.isPrefixOf]
  | cons a as ih =>
    show (a == a && as.isPrefixOf (as ++ t)) = true
    rw [ih]
    simp

/-- C6: `iterfiles` yields the root itself when the root is a file (whatever
the flag); for a directory root it yields exactly the direct `.xsd` children
and, only when the flag is set, the files found the same way below each child
directory; so with the flag unset and no qualifying direct child file it
yields nothing. -/
theorem claim6_iterfiles (p : FsPath) (nm : String) (entries : List FSNode) (r : Bool) :
    (∀ r2 : Bool, iterfiles p (.file nm) r2 = [p]) ∧
    (∀ x : FsPath, x ∈ iterfiles p (.dir nm entries) r ↔
      ((∃ f : String, FSNode.file f ∈ entries ∧ pySuffix f = ".xsd" ∧ x = p ++ [f]) ∨
       (r = true ∧ ∃ nm2 es2, FSNode.dir nm2 es2 ∈ entries ∧
         x ∈ iterfiles (p ++ [nm2]) (.dir nm2 es2) r))) ∧
    ((∀ f ∈ entries, f.isDir = true) → iterfiles p (.dir nm entries) false = []) := by
  refine ⟨fun r2 => rfl, ?_, ?_⟩
  · intro x
    rw [iterfiles_dir]
    rw [List.mem_flatMap]
    constructor
    · rintro ⟨g, hg, hx⟩
      rcases List.mem_append.mp hx with hx | hx
      · cases g with
        | file f =>
          simp only [show (FSNode.file f).isFile = true from rfl,
            show (FSNode.file f).name = f from rfl, Bool.true_and] at hx
          by_cases hs : (pySuffix f == ".xsd") = true
          · rw [if_pos hs] at hx
            rcases List.mem_singleton.mp hx with rfl
            exact Or.inl ⟨f, hg, by simpa using hs, rfl⟩
          · rw [if_neg hs] at hx
            cases hx
        | dir nm2 es2 =>
          rw [if_neg (by simp [FSNode.isFile])] at hx
          cases hx
      · cases g with
        | file f =>
          rw [if_neg (by simp [FSNode.isDir])] at hx
          cases hx
        | dir nm2 es2 =>
          by_cases hr : r = true
          · rw [if_pos (by simp [FSNode.isDir, hr])] at hx
            exact Or.inr ⟨hr, nm2, es2, hg, hx⟩
          · rw [if_neg (by simp [FSNode.isDir, hr])] at hx
            cases hx
    · rintro (⟨f, hf, hs, rfl⟩ | ⟨hr, nm2, es2, hm, hx⟩)
      · refine ⟨FSNode.file f, hf, ?_⟩
        apply List.mem_append.mpr
        left
        rw [if_pos (by simp [FSNode.isFile, FSNode.name, hs])]
        exact List.mem_singleton.mpr rfl
      · refine ⟨FSNode.dir nm2 es2, hm, ?_⟩
        apply List.mem_append.mpr
        right
        rw [if_pos (by simp [FSNode.isDir, hr])]
        simpa [FSNode.name] using hx
  · intro hdir
    rw [iterfiles_dir]
    apply List.flatMap_eq_nil_iff.mpr
    intro g hg
    have hd := hdir g hg
    have hf : g.isFile = false := by
      cases g with
      | file f => simp [FSNode.isDir] at hd
      | dir nm2 es2 => rfl
    rw [if_neg (by simp [hf]), if_neg (by simp)]
    rfl

/-- Witness for C6: a directory containing only `sub/b.xsd` yields nothing
when recursion is off, and exactly `in/sub/b.xsd` when it is on. -/
theorem claim6_witness :
    iterfiles [("in")] exFS false = [] ∧
    iterfiles [("in")] exFS true = [[("in"), ("sub"), ("b.xsd")]] :=
  ⟨(claim6_iterfiles [("in")] ("in")
      [FSNode.dir ("sub") [FSNode.file ("b.xsd")]] false).2.2 (by decide), by decide⟩

/-- C7: the three cases of `outputfile`: file input with directory output
joins the output directory and the file's name; file input otherwise returns
the output path itself; directory input joins the output root with the
discovered file's path relative to the input root. -/
theorem claim7_outputfile (input_path output_path input_file : FsPath) :
    outputfile true true input_path output_path input_file =
      some (output_path ++ [input_file.getLastD ""]) ∧
    outputfile true false input_path output_path input_file = some output_path ∧
    (∀ rel : FsPath, input_file = input_path ++ rel → ∀ d : Bool,
      outputfile false d input_path output_path input_file =
        some (output_path ++ rel)) := by
  refine ⟨rfl, rfl, ?_⟩
  rintro rel rfl d
  show (relative_to (input_path ++ rel) input_path).map _ = _
  unfold relative_to
  rw [if_pos (isPrefixOf_append_self input_path rel)]
  rw [show List.drop (List.length input_path) (input_path ++ rel) = rel from
    List.drop_left input_path rel]
  rfl

/-- Witness for C7: a single input file `x.xsd` with an existing output
directory `out` maps to `out/x.xsd`; with a non-directory output it maps to
the output path itself; a directory input preserves the relative path. -/
theorem claim7_witness :
    outputfile true true [("x.xsd")] [("out")] [("x.xsd")] = some [("out"), ("x.xsd")] ∧
    outputfile true false [("x.xsd")] [("dest.xsd")] [("x.xsd")] = some [("dest.xsd")] ∧
    outputfile false true [("in")] [("out")] [("in"), ("sub"), ("b.xsd")] =
      some [("out"), ("sub"), ("b.xsd")] := by
  refine ⟨?_, ?_, ?_⟩
  · exact (claim7_outputfile [("x.xsd")] [("out")] [("x.xsd")]).1
  · exact (claim7_outputfile [("x.xsd")] [("dest.xsd")] [("x.xsd")]).2.1
  · exact (claim7_outputfile [("in")] [("out")] [("in"), ("sub"), ("b.xsd")]).2.2
      [("sub"), ("b.xsd")] rfl true

/-- C8: the run is rejected, before any file is read, exactly when the two
resolved paths are equal, or the input is a file and the output an existing
directory equal to the input file's parent; a rejected run produces no
processing result at all. -/
theorem claim8_validation (input_path output_path : FsPath) (fi di : Bool)
    (root : FSNode) (r : Bool) :
    ((∃ msg, mainModel input_path output_path fi di root r = .error msg) ↔
      (input_path = output_path ∨
        (fi = true ∧ di = true ∧ input_path.dropLast = output_path))) ∧
    ((input_path = output_path ∨
        (fi = true ∧ di = true ∧ input_path.dropLast = output_path)) →
      ¬ ∃ res, mainModel input_path output_path fi di root r = .ok res) := by
  have hmain : ∀ P : Except String (List (FsPath × Option FsPath) × List FsPath) → Prop,
      P (mainModel input_path output_path fi di root r) ↔
      P (match parse_args_validate input_path output_path fi di with
         | .error e => .error e
         | .ok _ => .ok (runBatch input_path output_path fi di
             (iterfiles input_path root r))) := by
    intro P
    rfl
  constructor
  · unfold mainModel parse_args_validate
    by_cases h1 : input_path = output_path
    · rw [if_pos h1]
      simp [h1]
    · rw [if_neg h1]
      by_cases h2 : (fi && di && decide (input_path.dropLast = output_path)) = true
      · rw [if_pos h2]
        simp only [Bool.and_eq_true, decide_eq_true_eq] at h2
        simp [h1, h2.1.1, h2.1.2, h2.2]
      · rw [if_neg h2]
        simp only [Bool.and_eq_true, decide_eq_true_eq] at h2
        constructor
        · rintro ⟨msg, hmsg⟩
          cases hmsg
        · rintro (h | ⟨ha, hb, hc⟩)
          · exact absurd h h1
          · exact absurd ⟨⟨ha, hb⟩, hc⟩ h2
  · intro hcond ⟨res, hres⟩
    unfold mainModel parse_args_validate at hres
    rcases hcond with h | ⟨ha, hb, hc⟩
    · rw [if_pos h] at hres
      cases hres
    · by_cases h1 : input_path = output_path
      · rw [if_pos h1] at hres
        cases hres
      · rw [if_neg h1, if_pos (by simp [ha, hb, hc])] at hres
        cases hres

/-- Witness for C8: equal input and output paths are rejected. -/
theorem claim8_witness :
    (∃ msg, mainModel [("x")] [("x")] true false (FSNode.file ("x")) false = .error msg) ∧
    ¬ ∃ res, mainModel [("x")] [("x")] true false (FSNode.file ("x")) false = .ok res :=
  ⟨(claim8_validation [("x")] [("x")] true false (FSNode.file ("x")) false).1.mpr
      (Or.inl rfl),
   (claim8_validation [("x")] [("x")] true false (FSNode.file ("x")) false).2
      (Or.inl rfl)⟩

theorem runBatch_eq (input_path output_path : FsPath) (fi di : Bool)
    (files : List FsPath) :
    runBatch input_path output_path fi di files =
      ((files.filter (fun f => !(output_path.isPrefixOf f))).map
          (fun f => (f, outputfile fi di input_path output_path f)),
        files.filter (fun f => output_path.isPrefixOf f)) := by
  induction files with
  | nil => rfl
  | cons f rest ih =>
    show (let (ps, ss) := runBatch input_path output_path fi di rest
          if output_path.isPrefixOf f then (ps, f :: ss)
          else ((f, outputfile fi di input_path output_path f) :: ps, ss)) = _
    rw [ih]
    by_cases h : output_path.isPrefixOf f = true
    · simp only [h, if_true, List.filter_cons, Bool.not_true, Bool.false_eq_true, if_false,
        if_pos h]
    · simp only [h, Bool.false_eq_true, if_false, List.filter_cons, Bool.not_eq_true', h,
        Bool.not_false, if_true, List.map_cons]

/-- C9: over the discovered files, `main`'s loop skips (without processing)
exactly the files lying under the output root and processes, in order, every
other file with its computed output path; a skip does not stop the batch. -/
theorem claim9_skip_under_output (input_path output_path : FsPath) (fi di : Bool)
    (root : FSNode) (r : Bool) :
    (runBatch input_path output_path fi di (iterfiles input_path root r)).1 =
      ((iterfiles input_path root r).filter
          (fun f => !(output_path.isPrefixOf f))).map
        (fun f => (f, outputfile fi di input_path output_path f)) ∧
    (runBatch input_path output_path fi di (iterfiles input_path root r)).2 =
      (iterfiles input_path root r).filter (fun f => output_path.isPrefixOf f) := by
  rw [runBatch_eq]
  exact ⟨rfl, rfl⟩

/-! ### Unfolding equations for the fuel-indexed auxiliary definitions -/

theorem all_congr_mem {α : Type} {f g : α → Bool} {l : List α}
    (h : ∀ x ∈ l, f x = g x) : l.all f = l.all g := by
  induction l with
  | nil => rfl
  | cons a as ih =>
    simp only [List.all_cons]
    rw [h a (List.mem_cons_self a as), ih (fun x hx => h x (List.mem_cons_of_mem a hx))]

theorem stripAllFuel_congr :
    ∀ {n m : Nat} {e : Element}, Element.size e ≤ n → Element.size e ≤ m →
      stripAllFuel n e = stripAllFuel m e := by
  intro n
  induction n using Nat.strong_induction_on with
  | _ n ih =>
    intro m e hn hm
    have hpos := Element.size_pos e
    cases n with
    | zero => omega
    | succ n' =>
      cases m with
      | zero => omega
      | succ m' =>
        simp only [stripAllFuel]
        congr 1
        apply List.map_congr_left
        intro c hc
        have hlt := Element.size_lt_of_mem hc
        exact ih n' (by omega) (by omega) (by omega)

theorem stripAll_eq (e : Element) :
    stripAll e =
      Element.mk e.tag e.attrib (pyStrip e.text) e.tail (e.children.map stripAll) := by
  unfold stripAll
  have hpos := Element.size_pos e
  rcases hn : Element.size e with _ | n
  · omega
  · simp only [stripAllFuel]
    congr 1
    apply List.map_congr_left
    intro c hc
    have hlt := Element.size_lt_of_mem hc
    exact stripAllFuel_congr (by omega) (by omega)

theorem wfAttrs_eq (e : Element) :
    wfAttrs e = (keysNodupB e.attrib && e.children.all wfAttrs) := by
  unfold wfAttrs
  have hpos := Element.size_pos e
  rcases hn : Element.size e with _ | n
  · omega
  · simp only [wfAttrsFuel]
    congr 1
    apply all_congr_mem
    intro c hc
    have hlt := Element.size_lt_of_mem hc
    have hcongr : ∀ {u v : Nat} {x : Element}, Element.size x ≤ u → Element.size x ≤ v →
        wfAttrsFuel u x = wfAttrsFuel v x := by
      intro u
      induction u using Nat.strong_induction_on with
      | _ u ihu =>
        intro v x hu hv
        have := Element.size_pos x
        cases u with
        | zero => omega
        | succ u' =>
          cases v with
          | zero => omega
          | succ v' =>
            simp only [wfAttrsFuel]
            congr 1
            apply all_congr_mem
            intro y hy
            have := Element.size_lt_of_mem hy
            exact ihu u' (by omega) (by omega) (by omega)
    exact hcongr (by omega) (by omega)

theorem noAnnotChildrenAllFuel_congr :
    ∀ {n m : Nat} {e : Element}, Element.size e ≤ n → Element.size e ≤ m →
      noAnnotChildrenAllFuel n e = noAnnotChildrenAllFuel m e := by
  intro n
  induction n using Nat.strong_induction_on with
  | _ n ih =>
    intro m e hn hm
    have hpos := Element.size_pos e
    cases n with
    | zero => omega
    | succ n' =>
      cases m with
      | zero => omega
      | succ m' =>
        simp only [noAnnotChildrenAllFuel]
        congr 1
        apply all_congr_mem
        intro c hc
        have hlt := Element.size_lt_of_mem hc
        exact ih n' (by omega) (by omega) (by omega)

theorem noAnnotChildrenAll_eq (e : Element) :
    noAnnotChildrenAll e =
      (e.children.all (fun c => c.tag != xsdAnnotation) &&
        e.children.all noAnnotChildrenAll) := by
  unfold noAnnotChildrenAll
  have hpos := Element.size_pos e
  rcases hn : Element.size e with _ | n
  · omega
  · simp only [noAnnotChildrenAllFuel]
    congr 1
    apply all_congr_mem
    intro c hc
    have hlt := Element.size_lt_of_mem hc
    exact noAnnotChildrenAllFuel_congr (by omega) (by omega)

theorem attrKeysSortedAllFuel_congr :
    ∀ {n m : Nat} {e : Element}, Element.size e ≤ n → Element.size e ≤ m →
      attrKeysSortedAllFuel n e = attrKeysSortedAllFuel m e := by
  intro n
  induction n using Nat.strong_induction_on with
  | _ n ih =>
    intro m e hn hm
    have hpos := Element.size_pos e
    cases n with
    | zero => omega
    | succ n' =>
      cases m with
      | zero => omega
      | succ m' =>
        simp only [attrKeysSortedAllFuel]
        congr 1
        apply all_congr_mem
        intro c hc
        have hlt := Element.size_lt_of_mem hc
        exact ih n' (by omega) (by omega) (by omega)

theorem attrKeysSortedAll_eq (e : Element) :
    attrKeysSortedAll e =
      (chainLeB (e.attrib.map Prod.fst) && e.children.all attrKeysSortedAll) := by
  unfold attrKeysSortedAll
  have hpos := Element.size_pos e
  rcases hn : Element.size e with _ | n
  · omega
  · simp only [attrKeysSortedAllFuel]
    congr 1
    apply all_congr_mem
    intro c hc
    have hlt := Element.size_lt_of_mem hc
    exact attrKeysSortedAllFuel_congr (by omega) (by omega)

theorem skelFuel_congr :
    ∀ {n m : Nat} {e : Element}, Element.size e ≤ n → Element.size e ≤ m →
      skelFuel n e = skelFuel m e := by
  intro n
  induction n using Nat.strong_induction_on with
  | _ n ih =>
    intro m e hn hm
    have hpos := Element.size_pos e
    cases n with
    | zero => omega
    | succ n' =>
      cases m with
      | zero => omega
      | succ m' =>
        simp only [skelFuel]
        congr 1
        apply List.map_congr_left
        intro c hc
        have hlt := Element.size_lt_of_mem hc
        exact ih n' (by omega) (by omega) (by omega)

theorem skel_eq (e : Element) :
    skel e = Skel.mk e.tag e.attrib (e.children.map skel) := by
  unfold skel
  have hpos := Element.size_pos e
  rcases hn : Element.size e with _ | n
  · omega
  · simp only [skelFuel]
    congr 1
    apply List.map_congr_left
    intro c hc
    have hlt := Element.size_lt_of_mem hc
    exact skelFuel_congr (by omega) (by omega)

@[simp] theorem Skel.tagS_mk (t a ks) : (Skel.mk t a ks).tag = t := rfl

@[simp] theorem Skel.attribS_mk (t a ks) : (Skel.mk t a ks).attrib = a := rfl

@[simp] theorem Skel.kids_mk (t a ks) : (Skel.mk t a ks).kids = ks := rfl

theorem skel_tag (e : Element) : (skel e).tag = e.tag := by rw [skel_eq]; rfl

theorem skel_attrib (e : Element) : (skel e).attrib = e.attrib := by rw [skel_eq]; rfl

theorem skel_kids (e : Element) : (skel e).kids = e.children.map skel := by
  rw [skel_eq]; rfl

theorem nameKeyS_skel (e : Element) : nameKeyS (skel e) = nameKey e := by
  unfold nameKeyS nameKey
  rw [skel_attrib]

/-! ### Structure preserved by the indentation pass -/

theorem Element.withTail_tag (e : Element) (s : String) : (e.withTail s).tag = e.tag := by
  cases e; rfl

theorem Element.withTail_attrib (e : Element) (s : String) :
    (e.withTail s).attrib = e.attrib := by
  cases e; rfl

theorem Element.withTail_text (e : Element) (s : String) :
    (e.withTail s).text = e.text := by
  cases e; rfl

theorem Element.withTail_children (e : Element) (s : String) :
    (e.withTail s).children = e.children := by
  cases e; rfl

theorem Element.withTail_tail (e : Element) (s : String) : (e.withTail s).tail = s := by
  cases e; rfl

theorem Element.withTail_self (e : Element) : e.withTail e.tail = e := by
  cases e; rfl

theorem Element.withTail_withTail (e : Element) (s u : String) :
    (e.withTail s).withTail u = e.withTail u := by
  cases e; rfl

theorem skel_withTail (e : Element) (s : String) : skel (e.withTail s) = skel e := by
  rw [skel_eq, skel_eq, Element.withTail_tag, Element.withTail_attrib,
    Element.withTail_children]

theorem indentChildren_tag (d : Nat) (e : Element) :
    (indentChildren d e).tag = e.tag := by
  rw [indentChildren_eq]; rfl

theorem indentChildren_attrib (d : Nat) (e : Element) :
    (indentChildren d e).attrib = e.attrib := by
  rw [indentChildren_eq]; rfl

theorem indentChildren_tail (d : Nat) (e : Element) :
    (indentChildren d e).tail = e.tail := by
  rw [indentChildren_eq]; rfl

theorem map_skel_dedentLast (d : Nat) (l : List Element) :
    (dedentLast d l).map skel = l.map skel := by
  induction l with
  | nil => rfl
  | cons c rest ih =>
    cases rest with
    | nil =>
      show [skel (if pyStrip c.tail = "" then c.withTail (indentStr d) else c)] = [skel c]
      by_cases h : pyStrip c.tail = ""
      · rw [if_pos h, skel_withTail]
      · rw [if_neg h]
    | cons c2 rest2 =>
      show skel c :: (dedentLast d (c2 :: rest2)).map skel = skel c :: (c2 :: rest2).map skel
      rw [ih]

/-- The indentation pass only rewrites texts and tails: the skeleton is
unchanged. -/
theorem skel_indentChildren : ∀ (d : Nat) (e : Element),
    skel (indentChildren d e) = skel e := by
  have main : ∀ n d (e : Element), Element.size e ≤ n →
      skel (indentChildren d e) = skel e := by
    intro n
    induction n using Nat.strong_induction_on with
    | _ n ih =>
      intro d e hn
      have hpos := Element.size_pos e
      rw [indentChildren_eq, skel_eq, skel_eq]
      simp only [Element.tag_mk, Element.attrib_mk, Element.children_mk]
      congr 1
      rw [map_skel_dedentLast, List.map_map]
      apply List.map_congr_left
      intro c hc
      have hlt := Element.size_lt_of_mem hc
      show skel (let c1 := if c.children.isEmpty then c else indentChildren (d + 1) c
        if c1.tail = "" ∨ pyStrip c1.tail = "" then c1.withTail (indentStr (d + 1))
        else c1) = skel c
      by_cases hl : c.children.isEmpty = true
      · simp only [if_pos hl]
        by_cases ht : (c.tail = "" ∨ pyStrip c.tail = "")
        · rw [if_pos ht, skel_withTail]
        · rw [if_neg ht]
      · simp only [if_neg hl]
        have hrec : skel (indentChildren (d + 1) c) = skel c :=
          ih (n - 1) (by omega) (d + 1) c (by omega)
        by_cases ht : ((indentChildren (d + 1) c).tail = "" ∨
            pyStrip (indentChildren (d + 1) c).tail = "")
        · rw [if_pos ht, skel_withTail, hrec]
        · rw [if_neg ht, hrec]
  exact fun d e => main (Element.size e) d e (le_refl _)

theorem skel_format_tree (e : Element) : skel (format_tree e) = skel e := by
  unfold format_tree
  by_cases h : e.children.isEmpty = true
  · rw [if_pos h]
  · rw [if_neg h, skel_indentChildren]

/-! ### Claim C1: where the tag sort is applied -/

theorem children_sort_elements_by_tag_name (e : Element) :
    (sort_elements_by_tag_name e).children = isort Element.tag strLe e.children := by
  cases e; rfl

theorem map_tag_dedentLast (d : Nat) (l : List Element) :
    (dedentLast d l).map Element.tag = l.map Element.tag := by
  have h := map_skel_dedentLast d l
  have h2 := congrArg (List.map Skel.tag) h
  rw [List.map_map, List.map_map] at h2
  calc (dedentLast d l).map Element.tag
      = (dedentLast d l).map (Skel.tag ∘ skel) := by
        apply List.map_congr_left
        intro x _
        exact (skel_tag x).symm
    _ = l.map (Skel.tag ∘ skel) := h2
    _ = l.map Element.tag := by
        apply List.map_congr_left
        intro x _
        exact skel_tag x

theorem map_tag_format_tree_children (e : Element) :
    (format_tree e).children.map Element.tag = e.children.map Element.tag := by
  have h := congrArg Skel.kids (skel_format_tree e)
  rw [skel_kids, skel_kids] at h
  have h2 := congrArg (List.map Skel.tag) h
  rw [List.map_map, List.map_map] at h2
  calc (format_tree e).children.map Element.tag
      = (format_tree e).children.map (Skel.tag ∘ skel) := by
        apply List.map_congr_left
        intro x _
        exact (skel_tag x).symm
    _ = e.children.map (Skel.tag ∘ skel) := h2
    _ = e.children.map Element.tag := by
        apply List.map_congr_left
        intro x _
        exact skel_tag x

/-- Counterexample to C1: in the pipeline output for `exC1`, some element's
children are not in tag order — the tag sort is not applied recursively. -/
theorem claim1_counterexample : tagSortedAll (transform_pipeline exC1) = false := by
  decide

/-- C1 as amended: the whole-tree per-node pass runs first, and
`sort_elements_by_tag_name` is then applied to the root node only, so only
the root's direct children are guaranteed to be in ascending lexicographic
tag order in the output. -/
theorem claim1_amended (e : Element) :
    chainLeB ((transform_pipeline e).children.map Element.tag) = true := by
  unfold transform_pipeline
  rw [map_tag_format_tree_children, children_sort_elements_by_tag_name]
  apply chainLeB_of_pairwise
  rw [List.pairwise_map]
  exact isort_pairwise strLe_total strLe_trans3 _

/-! ### Claim C4: annotations after the pipeline -/

/-- Counterexample to C4: a document whose root is itself an `annotation`
element keeps it — `remove_annotations` only ever removes children. -/
theorem claim4_counterexample : hasAnnotation (transform_pipeline exC4) = true := by
  decide

/-! ### The rule pass establishes the skeleton invariants -/

theorem applyRules_ruleChildren (e : Element) :
    (applyRules e).children = ruleChildren e := by
  rw [applyRules_spec]
  rfl

theorem transform_tree_ruleChildren (e : Element) :
    transform_tree e =
      Element.mk e.tag (isort (fun kv => kv) attrLe e.attrib) (pyStrip e.text) e.tail
        ((ruleChildren e).map transform_tree) := by
  rw [transform_tree_spec]
  rfl

theorem mem_ruleChildren {c e : Element} (h : c ∈ ruleChildren e) :
    c ∈ e.children ∧ c.tag ≠ xsdAnnotation := by
  unfold ruleChildren at h
  have h2 : c ∈ e.children.filter (fun u => u.tag != xsdAnnotation) := by
    by_cases hs : e.tag ∈ SORTABLE_ELEMENTS
    · rw [if_pos hs] at h
      exact mem_isort.mp h
    · rwa [if_neg hs] at h
  rcases List.mem_filter.mp h2 with ⟨hm, hb⟩
  exact ⟨hm, by simpa using hb⟩

theorem SNoAnnot_transform_tree : ∀ e : Element, SNoAnnot (skel (transform_tree e)) := by
  have main : ∀ n (e : Element), Element.size e ≤ n →
      SNoAnnot (skel (transform_tree e)) := by
    intro n
    induction n using Nat.strong_induction_on with
    | _ n ih =>
      intro e hn
      have hpos := Element.size_pos e
      rw [transform_tree_ruleChildren, skel_eq]
      refine SNoAnnot.mk ?_ ?_
      · intro k hk
        simp only [Skel.kids_mk, Element.children_mk, List.map_map] at hk
        rcases List.mem_map.mp hk with ⟨c, hc, rfl⟩
        show (skel (transform_tree c)).tag ≠ xsdAnnotation
        rw [skel_tag, transform_tree_tag]
        exact (mem_ruleChildren hc).2
      · intro k hk
        simp only [Skel.kids_mk, Element.children_mk, List.map_map] at hk
        rcases List.mem_map.mp hk with ⟨c, hc, rfl⟩
        have hlt := Element.size_lt_of_mem (mem_ruleChildren hc).1
        exact ih (n - 1) (by omega) c (by omega)
  exact fun e => main (Element.size e) e (le_refl _)

theorem SAttrSorted_transform_tree : ∀ e : Element, SAttrSorted (skel (transform_tree e)) := by
  have main : ∀ n (e : Element), Element.size e ≤ n →
      SAttrSorted (skel (transform_tree e)) := by
    intro n
    induction n using Nat.strong_induction_on with
    | _ n ih =>
      intro e hn
      have hpos := Element.size_pos e
      rw [transform_tree_ruleChildren, skel_eq]
      refine SAttrSorted.mk ?_ ?_
      · simp only [Skel.attribS_mk, Element.attrib_mk]
        exact isort_pairwise attrLe_total attrLe_trans e.attrib
      · intro k hk
        simp only [Skel.kids_mk, Element.children_mk, List.map_map] at hk
        rcases List.mem_map.mp hk with ⟨c, hc, rfl⟩
        have hlt := Element.size_lt_of_mem (mem_ruleChildren hc).1
        exact ih (n - 1) (by omega) c (by omega)
  exact fun e => main (Element.size e) e (le_refl _)

theorem TextsStripped_transform_tree : ∀ e : Element, TextsStripped (transform_tree e) := by
  have main : ∀ n (e : Element), Element.size e ≤ n →
      TextsStripped (transform_tree e) := by
    intro n
    induction n using Nat.strong_induction_on with
    | _ n ih =>
      intro e hn
      have hpos := Element.size_pos e
      rw [transform_tree_ruleChildren]
      refine TextsStripped.mk ?_ ?_
      · show pyStrip (pyStrip e.text) = pyStrip e.text
        exact pyStrip_idem e.text
      · intro c hc
        simp only [Element.children_mk] at hc
        rcases List.mem_map.mp hc with ⟨c0, hc0, rfl⟩
        have hlt := Element.size_lt_of_mem (mem_ruleChildren hc0).1
        exact ih (n - 1) (by omega) c0 (by omega)
  exact fun e => main (Element.size e) e (le_refl _)

/-! ### The `name` key is insensitive to attribute reordering on real dicts -/

theorem keysNodupB_unique {l : List (String × String)} (h : keysNodupB l = true)
    {a b : String × String} (ha : a ∈ l) (hb : b ∈ l) (hk : a.1 = b.1) : a = b := by
  induction l with
  | nil => cases ha
  | cons kv rest ih =>
    have h2 : (!(rest.any (fun kv2 => kv2.1 == kv.1)) && keysNodupB rest) = true := h
    rw [Bool.and_eq_true] at h2
    rcases h2 with ⟨hnone, hrest⟩
    rcases List.mem_cons.mp ha with rfl | ha2
    · rcases List.mem_cons.mp hb with rfl | hb2
      · rfl
      · exfalso
        have : rest.any (fun kv2 => kv2.1 == a.1) = true :=
          List.any_eq_true.mpr ⟨b, hb2, by simp [hk]⟩
        rw [this] at hnone
        cases hnone
    · rcases List.mem_cons.mp hb with rfl | hb2
      · exfalso
        have : rest.any (fun kv2 => kv2.1 == b.1) = true :=
          List.any_eq_true.mpr ⟨a, ha2, by simp [hk]⟩
        rw [this] at hnone
        cases hnone
      · exact ih hrest ha2 hb2

theorem nameKeyA_perm {l l2 : List (String × String)} (h : keysNodupB l = true)
    (hp : l2.Perm l) : nameKeyA l2 = nameKeyA l := by
  unfold nameKeyA
  rcases hfind : l.find? (fun kv => kv.1 == "name") with _ | kv
  · rcases hfind2 : l2.find? (fun kv => kv.1 == "name") with _ | kv2
    · rw [hfind, hfind2]
    · exfalso
      have hmem : kv2 ∈ l2 := List.mem_of_find?_eq_some hfind2
      have hpred := List.find?_some hfind2
      have : ∀ x ∈ l, ¬ (fun kv => kv.1 == "name") x = true := List.find?_eq_none.mp hfind
      exact this kv2 (hp.mem_iff.mp hmem) hpred
  · rcases hfind2 : l2.find? (fun kv => kv.1 == "name") with _ | kv2
    · exfalso
      have hmem : kv ∈ l := List.mem_of_find?_eq_some hfind
      have hpred := List.find?_some hfind
      have : ∀ x ∈ l2, ¬ (fun kv => kv.1 == "name") x = true := List.find?_eq_none.mp hfind2
      exact this kv (hp.mem_iff.mpr hmem) hpred
    · have hm1 : kv ∈ l := List.mem_of_find?_eq_some hfind
      have hm2 : kv2 ∈ l := hp.mem_iff.mp (List.mem_of_find?_eq_some hfind2)
      have hp1 := List.find?_some hfind
      have hp2 := List.find?_some hfind2
      have hk : kv2.1 = kv.1 := by
        have e1 : kv.1 = "name" := by simpa using hp1
        have e2 : kv2.1 = "name" := by simpa using hp2
        rw [e1, e2]
      rw [hfind, hfind2, keysNodupB_unique h hm2 hm1 hk]

theorem wfAttrs_keys {e : Element} (h : wfAttrs e = true) : keysNodupB e.attrib = true := by
  rw [wfAttrs_eq, Bool.and_eq_true] at h
  exact h.1

theorem wfAttrs_child {e c : Element} (h : wfAttrs e = true) (hc : c ∈ e.children) :
    wfAttrs c = true := by
  rw [wfAttrs_eq, Bool.and_eq_true] at h
  exact List.all_eq_true.mp h.2 c hc

theorem nameKey_transform_tree {c : Element} (h : keysNodupB c.attrib = true) :
    nameKey (transform_tree c) = nameKey c := by
  show nameKeyA (transform_tree c).attrib = nameKeyA c.attrib
  rw [transform_tree_attrib]
  exact nameKeyA_perm h (isort_perm c.attrib)

theorem SNameSorted_transform_tree : ∀ e : Element, wfAttrs e = true →
    SNameSorted (skel (transform_tree e)) := by
  have main : ∀ n (e : Element), Element.size e ≤ n → wfAttrs e = true →
      SNameSorted (skel (transform_tree e)) := by
    intro n
    induction n using Nat.strong_induction_on with
    | _ n ih =>
      intro e hn hwf
      have hpos := Element.size_pos e
      rw [transform_tree_ruleChildren, skel_eq]
      refine SNameSorted.mk ?_ ?_
      · intro hs
        simp only [Skel.tagS_mk, Element.tag_mk] at hs
        simp only [Skel.kids_mk, Element.children_mk, List.map_map]
        rw [List.pairwise_map]
        have hsorted : (ruleChildren e).Pairwise
            (fun a b => strLe (nameKey a) (nameKey b) = true) := by
          unfold ruleChildren
          rw [if_pos hs]
          exact isort_pairwise strLe_total strLe_trans3 _
        refine hsorted.imp_of_mem ?_
        intro a b ha hb hab
        have hka : nameKey (transform_tree a) = nameKey a :=
          nameKey_transform_tree (wfAttrs_keys (wfAttrs_child hwf (mem_ruleChildren ha).1))
        have hkb : nameKey (transform_tree b) = nameKey b :=
          nameKey_transform_tree (wfAttrs_keys (wfAttrs_child hwf (mem_ruleChildren hb).1))
        show strLe (nameKeyS (skel (transform_tree a))) (nameKeyS (skel (transform_tree b))) = true
        rw [nameKeyS_skel, nameKeyS_skel, hka, hkb]
        exact hab
      · intro k hk
        simp only [Skel.kids_mk, Element.children_mk, List.map_map] at hk
        rcases List.mem_map.mp hk with ⟨c, hc, rfl⟩
        have hlt := Element.size_lt_of_mem (mem_ruleChildren hc).1
        exact ih (n - 1) (by omega) c (by omega)
          (wfAttrs_child hwf (mem_ruleChildren hc).1)
  exact fun e => main (Element.size e) e (le_refl _)

/-! ### The tag sort and the indentation pass preserve the invariants -/

theorem skel_sort_elements_by_tag_name (x : Element) :
    skel (sort_elements_by_tag_name x) =
      Skel.mk x.tag x.attrib ((isort Element.tag strLe x.children).map skel) := by
  cases x with
  | mk t a xt l cs =>
    show skel (Element.mk t a xt l (isort Element.tag strLe cs)) = _
    rw [skel_eq]
    rfl

theorem SNoAnnot_G {x : Element} (h : SNoAnnot (skel x)) :
    SNoAnnot (skel (sort_elements_by_tag_name x)) := by
  rcases h with ⟨hown, hrec⟩
  rw [skel_sort_elements_by_tag_name]
  refine SNoAnnot.mk ?_ ?_
  · intro k hk
    simp only [Skel.kids_mk] at hk
    rcases List.mem_map.mp hk with ⟨c, hc, rfl⟩
    refine hown _ ?_
    rw [skel_kids]
    exact List.mem_map_of_mem _ (mem_isort.mp hc)
  · intro k hk
    simp only [Skel.kids_mk] at hk
    rcases List.mem_map.mp hk with ⟨c, hc, rfl⟩
    refine hrec _ ?_
    rw [skel_kids]
    exact List.mem_map_of_mem _ (mem_isort.mp hc)

theorem SAttrSorted_G {x : Element} (h : SAttrSorted (skel x)) :
    SAttrSorted (skel (sort_elements_by_tag_name x)) := by
  rcases h with ⟨hown, hrec⟩
  rw [skel_attrib] at hown
  rw [skel_sort_elements_by_tag_name]
  refine SAttrSorted.mk ?_ ?_
  · simpa using hown
  · intro k hk
    simp only [Skel.kids_mk] at hk
    rcases List.mem_map.mp hk with ⟨c, hc, rfl⟩
    refine hrec _ ?_
    rw [skel_kids]
    exact List.mem_map_of_mem _ (mem_isort.mp hc)

theorem SNameSorted_below_G {x : Element} (h : SNameSorted (skel x)) :
    ∀ k ∈ (skel (sort_elements_by_tag_name x)).kids, SNameSorted k := by
  rcases h with ⟨_, hrec⟩
  rw [skel_sort_elements_by_tag_name]
  intro k hk
  simp only [Skel.kids_mk] at hk
  rcases List.mem_map.mp hk with ⟨c, hc, rfl⟩
  refine hrec _ ?_
  rw [skel_kids]
  exact List.mem_map_of_mem _ (mem_isort.mp hc)

theorem TextsStripped_G {x : Element} (h : TextsStripped x) :
    TextsStripped (sort_elements_by_tag_name x) := by
  rcases h with ⟨hown, hrec⟩
  cases x with
  | mk t a xt l cs =>
    refine TextsStripped.mk ?_ ?_
    · exact hown
    · intro c hc
      exact hrec c (mem_isort.mp hc)

theorem SRootOrder_G_transform (e : Element) (hwf : wfAttrs e = true) :
    SRootOrder (skel (sort_elements_by_tag_name (transform_tree e))) := by
  rw [skel_sort_elements_by_tag_name]
  have hchild : (transform_tree e).children = (ruleChildren e).map transform_tree := by
    rw [transform_tree_ruleChildren]
    rfl
  have htag : (transform_tree e).tag = e.tag := transform_tree_tag e
  unfold SRootOrder
  simp only [Skel.tagS_mk, Skel.kids_mk, htag]
  by_cases hs : e.tag ∈ SORTABLE_ELEMENTS
  · rw [if_pos hs, hchild]
    unfold ruleChildren
    rw [if_pos hs]
    rw [isort_map (fun c => transform_tree_tag c)]
    rw [isort_isort strLe_total strLe_trans3 strLe_antisymm2
      strLe_total strLe_trans3 strLe_antisymm2]
    rw [List.map_map, List.pairwise_map]
    have hsorted := @isort_pairwise _ _ (fun a : Element => (a.tag, nameKey a)) _
      (lexLe_total strLe_total strLe_total)
      (lexLe_trans strLe_trans3 strLe_antisymm2 strLe_trans3)
      (e.children.filter (fun c => c.tag != xsdAnnotation))
    refine hsorted.imp_of_mem ?_
    intro a b ha hb hab
    have hwfa : keysNodupB a.attrib = true :=
      wfAttrs_keys (wfAttrs_child hwf (List.mem_filter.mp (mem_isort.mp ha)).1)
    have hwfb : keysNodupB b.attrib = true :=
      wfAttrs_keys (wfAttrs_child hwf (List.mem_filter.mp (mem_isort.mp hb)).1)
    show lexLe strLe strLe (lexTagNameS (skel (transform_tree a)))
      (lexTagNameS (skel (transform_tree b))) = true
    unfold lexTagNameS
    rw [skel_tag, skel_tag, nameKeyS_skel, nameKeyS_skel, transform_tree_tag,
      transform_tree_tag, nameKey_transform_tree hwfa, nameKey_transform_tree hwfb]
    exact hab
  · rw [if_neg hs, hchild]
    unfold ruleChildren
    rw [if_neg hs]
    rw [isort_map (fun c => transform_tree_tag c)]
    rw [List.map_map, List.pairwise_map]
    have hsorted := @isort_pairwise _ _ Element.tag _ strLe_total strLe_trans3
      (e.children.filter (fun c => c.tag != xsdAnnotation))
    refine hsorted.imp_of_mem ?_
    intro a b _ _ hab
    show strLe (skel (transform_tree a)).tag (skel (transform_tree b)).tag = true
    rw [skel_tag, skel_tag, transform_tree_tag, transform_tree_tag]
    exact hab

theorem SNoAnnot_pipeline (e : Element) : SNoAnnot (skel (transform_pipeline e)) := by
  unfold transform_pipeline
  rw [skel_format_tree]
  exact SNoAnnot_G (SNoAnnot_transform_tree e)

theorem SAttrSorted_pipeline (e : Element) : SAttrSorted (skel (transform_pipeline e)) := by
  unfold transform_pipeline
  rw [skel_format_tree]
  exact SAttrSorted_G (SAttrSorted_transform_tree e)

/-! ### From the skeleton invariants to the executable predicates -/

theorem noAnnotChildrenAll_of_SNoAnnot : ∀ e : Element, SNoAnnot (skel e) →
    noAnnotChildrenAll e = true := by
  have main : ∀ n (e : Element), Element.size e ≤ n → SNoAnnot (skel e) →
      noAnnotChildrenAll e = true := by
    intro n
    induction n using Nat.strong_induction_on with
    | _ n ih =>
      intro e hn h
      have hpos := Element.size_pos e
      rcases h with ⟨hown, hrec⟩
      rw [noAnnotChildrenAll_eq, Bool.and_eq_true]
      constructor
      · apply List.all_eq_true.mpr
        intro c hc
        have : (skel c).tag ≠ xsdAnnotation := by
          refine hown _ ?_
          rw [skel_kids]
          exact List.mem_map_of_mem _ hc
        rw [skel_tag] at this
        simpa using this
      · apply List.all_eq_true.mpr
        intro c hc
        have hlt := Element.size_lt_of_mem hc
        refine ih (n - 1) (by omega) c (by omega) ?_
        refine hrec _ ?_
        rw [skel_kids]
        exact List.mem_map_of_mem _ hc
  exact fun e => main (Element.size e) e (le_refl _)

theorem attrLe_fst {a b : String × String} (h : attrLe a b = true) :
    strLe a.1 b.1 = true := by
  unfold attrLe lexLe at h
  by_cases he : a.1 = b.1
  · rw [he]
    exact strLe_refl b.1
  · rw [if_neg he] at h
    exact h

theorem attrKeysSortedAll_of_SAttrSorted : ∀ e : Element, SAttrSorted (skel e) →
    attrKeysSortedAll e = true := by
  have main : ∀ n (e : Element), Element.size e ≤ n → SAttrSorted (skel e) →
      attrKeysSortedAll e = true := by
    intro n
    induction n using Nat.strong_induction_on with
    | _ n ih =>
      intro e hn h
      have hpos := Element.size_pos e
      rcases h with ⟨hown, hrec⟩
      rw [skel_attrib] at hown
      rw [attrKeysSortedAll_eq, Bool.and_eq_true]
      constructor
      · apply chainLeB_of_pairwise
        rw [List.pairwise_map]
        exact hown.imp (fun hab => attrLe_fst hab)
      · apply List.all_eq_true.mpr
        intro c hc
        have hlt := Element.size_lt_of_mem hc
        refine ih (n - 1) (by omega) c (by omega) ?_
        refine hrec _ ?_
        rw [skel_kids]
        exact List.mem_map_of_mem _ hc
  exact fun e => main (Element.size e) e (le_refl _)

/-- C4 as amended: the pipeline removes every annotation *child* throughout
the tree — no node of the output has an annotation child, i.e. no annotation
element remains anywhere strictly below the root (the root itself is never
removed, as the counterexample shows). -/
theorem claim4_amended (e : Element) : noAnnotChildrenAll (transform_pipeline e) = true :=
  noAnnotChildrenAll_of_SNoAnnot _ (SNoAnnot_pipeline e)

/-- C5: `sort_attributes` is the identity on attribute-less elements and
otherwise replaces the attribute mapping by the same pairs in ascending
lexicographic order (keys ascending), touching nothing else; and after the
full pipeline every node's attribute mapping iterates in ascending key
order. -/
theorem claim5_sort_attributes (e : Element) :
    (e.attrib = [] → sort_attributes e = e) ∧
    (sort_attributes e).attrib.Perm e.attrib ∧
    (sort_attributes e).attrib.Pairwise (fun a b => strLe a.1 b.1 = true) ∧
    (sort_attributes e).tag = e.tag ∧ (sort_attributes e).text = e.text ∧
    (sort_attributes e).tail = e.tail ∧ (sort_attributes e).children = e.children ∧
    (∀ u : Element, attrKeysSortedAll (transform_pipeline u) = true) := by
  cases e with
  | mk t a x l cs =>
    rw [sort_attributes_mk]
    refine ⟨?_, ?_, ?_, rfl, rfl, rfl, rfl, ?_⟩
    · intro ha
      simp only [Element.attrib_mk] at ha
      rw [ha]
      rfl
    · simp only [Element.attrib_mk]
      exact isort_perm a
    · simp only [Element.attrib_mk]
      refine (isort_pairwise attrLe_total attrLe_trans a).imp ?_
      intro u v huv
      exact attrLe_fst huv
    · intro u
      exact attrKeysSortedAll_of_SAttrSorted _ (SAttrSorted_pipeline u)

/-- Witness for C5: the empty-attribute element is untouched; a concrete
`{z: 1, a: 2}` mapping becomes `{a: 2, z: 1}`; and a concrete pipeline output
has every attribute mapping sorted. -/
theorem claim5_witness :
    sort_attributes exC5empty = exC5empty ∧
    (sort_attributes exC5).attrib = [(("a"), ("2")), (("z"), ("1"))] ∧
    attrKeysSortedAll (transform_pipeline exC5) = true :=
  ⟨(claim5_sort_attributes exC5empty).1 rfl, by decide,
   (claim5_sort_attributes exC5).2.2.2.2.2.2.2 exC5⟩

/-! ### Normal trees are fixed points of the rule pass and the tag sort -/

theorem stripAll_tag (e : Element) : (stripAll e).tag = e.tag := by
  rw [stripAll_eq]
  rfl

theorem sort_elements_by_tag_name_mk (t a x l cs) :
    sort_elements_by_tag_name (Element.mk t a x l cs) =
      Element.mk t a x l (isort Element.tag strLe cs) := rfl

theorem SNoAnnot_children_tags {e : Element} (h : SNoAnnot (skel e)) :
    ∀ c ∈ e.children, c.tag ≠ xsdAnnotation := by
  rcases h with ⟨hown, _⟩
  intro c hc
  have : (skel c).tag ≠ xsdAnnotation := by
    refine hown _ ?_
    rw [skel_kids]
    exact List.mem_map_of_mem _ hc
  rwa [skel_tag] at this

theorem SNoAnnot_child {e c : Element} (h : SNoAnnot (skel e)) (hc : c ∈ e.children) :
    SNoAnnot (skel c) := by
  rcases h with ⟨_, hrec⟩
  refine hrec _ ?_
  rw [skel_kids]
  exact List.mem_map_of_mem _ hc

theorem SAttrSorted_own {e : Element} (h : SAttrSorted (skel e)) :
    e.attrib.Pairwise (fun a b => attrLe a b = true) := by
  rcases h with ⟨hown, _⟩
  rwa [skel_attrib] at hown

theorem SAttrSorted_child {e c : Element} (h : SAttrSorted (skel e)) (hc : c ∈ e.children) :
    SAttrSorted (skel c) := by
  rcases h with ⟨_, hrec⟩
  refine hrec _ ?_
  rw [skel_kids]
  exact List.mem_map_of_mem _ hc

theorem SNameSorted_own {e : Element} (h : SNameSorted (skel e)) :
    e.tag ∈ SORTABLE_ELEMENTS →
      e.children.Pairwise (fun a b => strLe (nameKey a) (nameKey b) = true) := by
  rcases h with ⟨hown, _⟩
  intro hs
  rw [skel_tag] at hown
  have h2 := hown hs
  rw [skel_kids, List.pairwise_map] at h2
  refine h2.imp_of_mem ?_
  intro a b _ _ hab
  rwa [nameKeyS_skel, nameKeyS_skel] at hab

theorem SNameSorted_child {e c : Element} (h : SNameSorted (skel e)) (hc : c ∈ e.children) :
    SNameSorted (skel c) := by
  rcases h with ⟨_, hrec⟩
  refine hrec _ ?_
  rw [skel_kids]
  exact List.mem_map_of_mem _ hc

theorem filter_annot_of_normal {e : Element} (hna : ∀ c ∈ e.children, c.tag ≠ xsdAnnotation) :
    e.children.filter (fun u => u.tag != xsdAnnotation) = e.children := by
  apply List.filter_eq_self.mpr
  intro c hc
  simpa using hna c hc

theorem ruleChildren_of_noannot {e : Element}
    (hna : ∀ c ∈ e.children, c.tag ≠ xsdAnnotation) :
    ruleChildren e =
      if e.tag ∈ SORTABLE_ELEMENTS then isort nameKey strLe e.children
      else e.children := by
  unfold ruleChildren
  rw [filter_annot_of_normal hna]

theorem ruleChildren_of_normal {e : Element}
    (hna : ∀ c ∈ e.children, c.tag ≠ xsdAnnotation)
    (hns : e.tag ∈ SORTABLE_ELEMENTS →
      e.children.Pairwise (fun a b => strLe (nameKey a) (nameKey b) = true)) :
    ruleChildren e = e.children := by
  rw [ruleChildren_of_noannot hna]
  by_cases hs : e.tag ∈ SORTABLE_ELEMENTS
  · rw [if_pos hs, isort_eq_self (hns hs)]
  · rw [if_neg hs]

/-- On a subtree satisfying the skeleton invariants, the recursive rule pass
only strips texts. -/
theorem transform_tree_of_normal : ∀ e : Element, SNoAnnot (skel e) →
    SAttrSorted (skel e) → SNameSorted (skel e) → transform_tree e = stripAll e := by
  have main : ∀ n (e : Element), Element.size e ≤ n → SNoAnnot (skel e) →
      SAttrSorted (skel e) → SNameSorted (skel e) → transform_tree e = stripAll e := by
    intro n
    induction n using Nat.strong_induction_on with
    | _ n ih =>
      intro e hn h1 h2 h3
      have hpos := Element.size_pos e
      rw [transform_tree_ruleChildren, stripAll_eq,
        ruleChildren_of_normal (SNoAnnot_children_tags h1) (SNameSorted_own h3),
        isort_eq_self (SAttrSorted_own h2)]
      congr 1
      apply List.map_congr_left
      intro c hc
      have hlt := Element.size_lt_of_mem hc
      exact ih (n - 1) (by omega) c (by omega) (SNoAnnot_child h1 hc)
        (SAttrSorted_child h2 hc) (SNameSorted_child h3 hc)
  exact fun e => main (Element.size e) e (le_refl _)

/-- On a tree satisfying the root normal form, the rule pass followed by the
root tag sort only strips texts: the root's children are already in the
pipeline's final order. -/
theorem G_transform_tree_of_normal {e : Element}
    (h1 : SNoAnnot (skel e)) (h2 : SAttrSorted (skel e))
    (h3 : ∀ k ∈ (skel e).kids, SNameSorted k) (h4 : SRootOrder (skel e)) :
    sort_elements_by_tag_name (transform_tree e) = stripAll e := by
  have hchild : ∀ c ∈ e.children, SNameSorted (skel c) := by
    intro c hc
    refine h3 _ ?_
    rw [skel_kids]
    exact List.mem_map_of_mem _ hc
  have hmap : (ruleChildren e).map transform_tree = (ruleChildren e).map stripAll := by
    apply List.map_congr_left
    intro c hc
    have hc2 := (mem_ruleChildren hc).1
    exact transform_tree_of_normal c (SNoAnnot_child h1 hc2) (SAttrSorted_child h2 hc2)
      (hchild c hc2)
  have hord : isort Element.tag strLe
      (if e.tag ∈ SORTABLE_ELEMENTS then isort nameKey strLe e.children else e.children) =
      e.children := by
    unfold SRootOrder at h4
    rw [skel_tag] at h4
    by_cases hs : e.tag ∈ SORTABLE_ELEMENTS
    · rw [if_pos hs]
      rw [isort_isort strLe_total strLe_trans3 strLe_antisymm2
        strLe_total strLe_trans3 strLe_antisymm2]
      rw [if_pos hs] at h4
      rw [skel_kids, List.pairwise_map] at h4
      have h5 : e.children.Pairwise (fun a b =>
          lexLe strLe strLe (a.tag, nameKey a) (b.tag, nameKey b) = true) := by
        refine h4.imp_of_mem ?_
        intro a b _ _ hab
        unfold lexTagNameS at hab
        rwa [skel_tag, skel_tag, nameKeyS_skel, nameKeyS_skel] at hab
      rw [isort_eq_self h5]
    · rw [if_neg hs]
      rw [if_neg hs] at h4
      rw [skel_kids, List.pairwise_map] at h4
      have h5 : e.children.Pairwise (fun a b => strLe a.tag b.tag = true) := by
        refine h4.imp_of_mem ?_
        intro a b _ _ hab
        rwa [skel_tag, skel_tag] at hab
      rw [isort_eq_self h5]
  rw [transform_tree_ruleChildren, sort_elements_by_tag_name_mk, hmap,
    isort_map (fun c => stripAll_tag c),
    ruleChildren_of_noannot (SNoAnnot_children_tags h1), hord,
    isort_eq_self (SAttrSorted_own h2), stripAll_eq]

/-! ### The indentation pass: tail and text shape lemmas -/

theorem isEmpty_true_iff {α : Type} (l : List α) : l.isEmpty = true ↔ l = [] := by
  cases l <;> simp

theorem pyStrip_indentStr (d : Nat) : pyStrip (indentStr d) = "" := by
  apply string_data_eq
  show trimList (indentStr d).data = []
  apply trimList_of_all_space
  intro c hc
  have h2 : c ∈ '\n' :: List.replicate (2 * d) ' ' := hc
  rcases List.mem_cons.mp h2 with rfl | h3
  · rfl
  · rw [List.eq_of_mem_replicate h3]
    rfl

theorem stripAll_children (e : Element) : (stripAll e).children = e.children.map stripAll := by
  rw [stripAll_eq]
  rfl

theorem stripAll_of_leaf {e : Element} (h1 : e.children = []) (h2 : pyStrip e.text = e.text) :
    stripAll e = e := by
  rw [stripAll_eq, h1, h2]
  show Element.mk e.tag e.attrib e.text e.tail [] = e
  rw [← h1]
  exact Element.eta e

theorem dedentLast_single (d : Nat) (c : Element) :
    dedentLast d [c] = [if pyStrip c.tail = "" then c.withTail (indentStr d) else c] := rfl

theorem dedentLast_cons₂ (d : Nat) (x y : Element) (l : List Element) :
    dedentLast d (x :: y :: l) = x :: dedentLast d (y :: l) := rfl

theorem dedentLast_ne_nil {d : Nat} {l : List Element} (h : l ≠ []) :
    dedentLast d l ≠ [] := by
  cases l with
  | nil => exact absurd rfl h
  | cons x rest =>
    cases rest with
    | nil =>
      rw [dedentLast_single]
      exact List.cons_ne_nil _ _
    | cons y rest2 =>
      rw [dedentLast_cons₂]
      exact List.cons_ne_nil _ _

theorem mem_dedentLast {d : Nat} {l : List Element} {x : Element}
    (h : x ∈ dedentLast d l) : ∃ y ∈ l, x = y ∨ x = y.withTail (indentStr d) := by
  induction l with
  | nil => cases h
  | cons c rest ih =>
    cases rest with
    | nil =>
      rw [dedentLast_single] at h
      rcases List.mem_singleton.mp h with rfl
      by_cases hc : pyStrip c.tail = ""
      · exact ⟨c, List.mem_singleton.mpr rfl, Or.inr (by rw [if_pos hc])⟩
      · exact ⟨c, List.mem_singleton.mpr rfl, Or.inl (by rw [if_neg hc])⟩
    | cons c2 rest2 =>
      rw [dedentLast_cons₂] at h
      rcases List.mem_cons.mp h with rfl | h2
      · exact ⟨x, List.mem_cons_self x _, Or.inl rfl⟩
      · rcases ih h2 with ⟨y, hy, hxy⟩
        exact ⟨y, List.mem_cons_of_mem c hy, hxy⟩

theorem Indented_withTail {d : Nat} {c : Element} (s : String) (h : Indented d c) :
    Indented d (c.withTail s) := by
  rcases h with ⟨htext, htails, hrec⟩
  cases c with
  | mk t a x l cs => exact Indented.mk htext htails hrec

theorem Indented_leaf {d : Nat} {c : Element} (h1 : c.children = [])
    (h2 : pyStrip c.text = c.text) : Indented d c := by
  cases c with
  | mk t a x l cs =>
    simp only [Element.children_mk] at h1
    subst h1
    refine Indented.mk ?_ ?_ ?_
    · simpa using h2
    · exact trivial
    · intro c hc
      cases hc

theorem TailsOK_cons_of_ne {d : Nat} {x : Element} {l : List Element}
    (h1 : x.tail = indentStr (d + 1) ∨ pyStrip x.tail ≠ "")
    (h2 : TailsOK d l) (h3 : l ≠ []) : TailsOK d (x :: l) := by
  cases l with
  | nil => exact absurd rfl h3
  | cons y rest => exact ⟨h1, h2⟩

/-- Re-running the tail assignment and the final dedent on tails that already
carry the indented shape restores them exactly. -/
theorem dedentLast_tails_restore : ∀ (d : Nat) (cs : List Element), TailsOK d cs →
    dedentLast d (cs.map (fun c =>
      if c.tail = "" ∨ pyStrip c.tail = "" then c.withTail (indentStr (d + 1)) else c)) =
      cs := by
  intro d cs
  induction cs with
  | nil => intro _; rfl
  | cons c rest ih =>
    intro h
    cases rest with
    | nil =>
      rcases (h : c.tail = indentStr d ∨ pyStrip c.tail ≠ "") with hleft | hright
      · have hblank : pyStrip c.tail = "" := by
          rw [hleft]
          exact pyStrip_indentStr d
        rw [List.map_singleton, if_pos (Or.inr hblank), dedentLast_single,
          Element.withTail_tail, if_pos (pyStrip_indentStr (d + 1)),
          Element.withTail_withTail, ← hleft, Element.withTail_self]
      · have hne : ¬ (c.tail = "" ∨ pyStrip c.tail = "") := by
          rintro (h1 | h2)
          · rw [h1] at hright
            exact hright pyStrip_empty
          · exact hright h2
        rw [List.map_singleton, if_neg hne, dedentLast_single, if_neg hright]
    | cons c2 rest2 =>
      rcases (h : (c.tail = indentStr (d + 1) ∨ pyStrip c.tail ≠ "") ∧
        TailsOK d (c2 :: rest2)) with ⟨hhead, htail⟩
      rw [List.map_cons, List.map_cons, dedentLast_cons₂]
      have hc : (if c.tail = "" ∨ pyStrip c.tail = "" then c.withTail (indentStr (d + 1))
          else c) = c := by
        rcases hhead with hleft | hright
        · rw [if_pos (Or.inr (by rw [hleft]; exact pyStrip_indentStr (d + 1))), ← hleft,
            Element.withTail_self]
        · rw [if_neg (by
            rintro (h1 | h2)
            · rw [h1] at hright
              exact hright pyStrip_empty
            · exact hright h2)]
      rw [hc]
      exact congrArg (fun L => c :: L) (ih htail)

/-- The tail assignment followed by the final dedent always leaves tails of
the indented shape. -/
theorem TailsOK_dedent : ∀ (d : Nat) (l : List Element),
    (∀ x ∈ l, x.tail = indentStr (d + 1) ∨ pyStrip x.tail ≠ "") →
    TailsOK d (dedentLast d l) := by
  intro d l
  induction l with
  | nil => intro _; exact trivial
  | cons x rest ih =>
    intro h
    cases rest with
    | nil =>
      rw [dedentLast_single]
      by_cases hx : pyStrip x.tail = ""
      · rw [if_pos hx]
        exact Or.inl (Element.withTail_tail x _)
      · rw [if_neg hx]
        exact Or.inr hx
    | cons y rest2 =>
      rw [dedentLast_cons₂]
      refine TailsOK_cons_of_ne (h x (List.mem_cons_self x _))
        (ih (fun z hz => h z (List.mem_cons_of_mem x hz)))
        (dedentLast_ne_nil (List.cons_ne_nil y rest2))

/-- On a normalised subtree with children, redoing the indentation of the
stripped subtree restores the subtree exactly. -/
theorem indentChildren_stripAll : ∀ (d : Nat) (e : Element), Indented d e →
    e.children ≠ [] → indentChildren d (stripAll e) = e := by
  have main : ∀ n d (e : Element), Element.size e ≤ n → Indented d e →
      e.children ≠ [] → indentChildren d (stripAll e) = e := by
    intro n
    induction n using Nat.strong_induction_on with
    | _ n ih =>
      intro d e hn hInd hne
      have hpos := Element.size_pos e
      rcases hInd with ⟨htext, htails, hrec⟩
      rw [if_neg (fun hemp => hne ((isEmpty_true_iff e.children).mp hemp))] at htext
      have hbody : ∀ c ∈ e.children,
          (if (stripAll c).children.isEmpty then stripAll c
           else indentChildren (d + 1) (stripAll c)) = c := by
        intro c hc
        have hi := hrec c hc
        have hlt := Element.size_lt_of_mem hc
        by_cases hcc : c.children = []
        · rw [if_pos ((isEmpty_true_iff _).mpr (by rw [stripAll_children, hcc]; rfl))]
          rcases hi with ⟨htextc, _, _⟩
          rw [if_pos ((isEmpty_true_iff _).mpr hcc)] at htextc
          exact stripAll_of_leaf hcc htextc
        · rw [if_neg (fun hemp => by
            have h2 := (isEmpty_true_iff _).mp hemp
            rw [stripAll_children] at h2
            cases hl : c.children with
            | nil => exact hcc hl
            | cons a as =>
              rw [hl] at h2
              simp at h2)]
          exact ih (n - 1) (by omega) (d + 1) c (by omega) hi hcc
      rw [stripAll_eq, indentChildren_eq]
      simp only [Element.tag_mk, Element.attrib_mk, Element.text_mk, Element.tail_mk,
        Element.children_mk]
      have hT : (if pyStrip e.text = "" ∨ pyStrip (pyStrip e.text) = ""
          then indentStr (d + 1) else pyStrip e.text) = e.text := by
        rcases htext with hleft | ⟨hstr, hnz⟩
        · rw [if_pos (Or.inl (by rw [hleft]; exact pyStrip_indentStr (d + 1))), hleft]
        · have hcond : ¬ (pyStrip e.text = "" ∨ pyStrip (pyStrip e.text) = "") := by
            rw [hstr, hstr]
            rintro (h1 | h1) <;> exact hnz h1
          rw [if_neg hcond, hstr]
      have hCS : dedentLast d ((e.children.map stripAll).map (fun c =>
          let c1 := if c.children.isEmpty then c else indentChildren (d + 1) c
          if c1.tail = "" ∨ pyStrip c1.tail = "" then c1.withTail (indentStr (d + 1))
          else c1)) = e.children := by
        rw [List.map_map]
        have hmap2 : e.children.map ((fun c =>
            let c1 := if c.children.isEmpty then c else indentChildren (d + 1) c
            if c1.tail = "" ∨ pyStrip c1.tail = "" then c1.withTail (indentStr (d + 1))
            else c1) ∘ stripAll) = e.children.map (fun c =>
            if c.tail = "" ∨ pyStrip c.tail = "" then c.withTail (indentStr (d + 1))
            else c) := by
          apply List.map_congr_left
          intro c hc
          show (if (if (stripAll c).children.isEmpty then stripAll c
                else indentChildren (d + 1) (stripAll c)).tail = "" ∨
              pyStrip (if (stripAll c).children.isEmpty then stripAll c
                else indentChildren (d + 1) (stripAll c)).tail = ""
              then (if (stripAll c).children.isEmpty then stripAll c
                else indentChildren (d + 1) (stripAll c)).withTail (indentStr (d + 1))
              else (if (stripAll c).children.isEmpty then stripAll c
                else indentChildren (d + 1) (stripAll c))) = _
          rw [hbody c hc]
        rw [hmap2]
        exact dedentLast_tails_restore d e.children htails
      rw [hT, hCS]
      exact Element.eta e
  exact fun d e => main (Element.size e) d e (le_refl _)

/-- Indenting a tree whose texts are stripped produces the normalised
text/tail shape. -/
theorem Indented_indentChildren : ∀ (d : Nat) (y : Element), TextsStripped y →
    y.children ≠ [] → Indented d (indentChildren d y) := by
  have main : ∀ n d (y : Element), Element.size y ≤ n → TextsStripped y →
      y.children ≠ [] → Indented d (indentChildren d y) := by
    intro n
    induction n using Nat.strong_induction_on with
    | _ n ih =>
      intro d y hn hts hne
      have hpos := Element.size_pos y
      rcases hts with ⟨hown, hrecTS⟩
      rw [indentChildren_eq]
      have hne2 : dedentLast d (y.children.map (fun c =>
          let c1 := if c.children.isEmpty then c else indentChildren (d + 1) c
          if c1.tail = "" ∨ pyStrip c1.tail = "" then c1.withTail (indentStr (d + 1))
          else c1)) ≠ [] := by
        apply dedentLast_ne_nil
        cases hl : y.children with
        | nil => exact absurd hl hne
        | cons a as => simp
      refine Indented.mk ?_ ?_ ?_
      · simp only [Element.children_mk, Element.text_mk]
        rw [if_neg (fun hemp => hne2 ((isEmpty_true_iff _).mp hemp))]
        by_cases hb : (y.text = "" ∨ pyStrip y.text = "")
        · rw [if_pos hb]
          exact Or.inl rfl
        · rw [if_neg hb]
          exact Or.inr ⟨hown, fun h1 => hb (Or.inl h1)⟩
      · simp only [Element.children_mk]
        apply TailsOK_dedent
        intro x hx
        rcases List.mem_map.mp hx with ⟨c, hc, rfl⟩
        by_cases hb : ((if c.children.isEmpty then c else indentChildren (d + 1) c).tail = ""
            ∨ pyStrip (if c.children.isEmpty then c
              else indentChildren (d + 1) c).tail = "")
        · show ((if (if c.children.isEmpty then c else indentChildren (d + 1) c).tail = "" ∨
              pyStrip (if c.children.isEmpty then c
                else indentChildren (d + 1) c).tail = ""
              then (if c.children.isEmpty then c
                else indentChildren (d + 1) c).withTail (indentStr (d + 1))
              else (if c.children.isEmpty then c
                else indentChildren (d + 1) c)).tail = indentStr (d + 1)) ∨ _
          rw [if_pos hb, Element.withTail_tail]
          exact Or.inl rfl
        · show ((if (if c.children.isEmpty then c else indentChildren (d + 1) c).tail = "" ∨
              pyStrip (if c.children.isEmpty then c
                else indentChildren (d + 1) c).tail = ""
              then (if c.children.isEmpty then c
                else indentChildren (d + 1) c).withTail (indentStr (d + 1))
              else (if c.children.isEmpty then c
                else indentChildren (d + 1) c)).tail = indentStr (d + 1)) ∨ _
          rw [if_neg hb]
          exact Or.inr (fun h1 => hb (Or.inr h1))
      · simp only [Element.children_mk]
        intro x hx
        rcases mem_dedentLast hx with ⟨y2, hy2, hxy⟩
        rcases List.mem_map.mp hy2 with ⟨c, hc, rfl⟩
        have hc1 : Indented (d + 1) (if c.children.isEmpty then c
            else indentChildren (d + 1) c) := by
          by_cases hcc : c.children.isEmpty = true
          · rw [if_pos hcc]
            rcases hrecTS c hc with ⟨howc, _⟩
            exact Indented_leaf ((isEmpty_true_iff _).mp hcc) howc
          · rw [if_neg hcc]
            have hlt := Element.size_lt_of_mem hc
            exact ih (n - 1) (by omega) (d + 1) c (by omega) (hrecTS c hc)
              (fun hl => hcc ((isEmpty_true_iff _).mpr hl))
        have hproc : Indented (d + 1)
            (if (if c.children.isEmpty then c else indentChildren (d + 1) c).tail = "" ∨
              pyStrip (if c.children.isEmpty then c
                else indentChildren (d + 1) c).tail = ""
             then (if c.children.isEmpty then c
                else indentChildren (d + 1) c).withTail (indentStr (d + 1))
             else (if c.children.isEmpty then c else indentChildren (d + 1) c)) := by
          by_cases hb : ((if c.children.isEmpty then c
              else indentChildren (d + 1) c).tail = "" ∨
              pyStrip (if c.children.isEmpty then c
                else indentChildren (d + 1) c).tail = "")
          · rw [if_pos hb]
            exact Indented_withTail _ hc1
          · rw [if_neg hb]
            exact hc1
        rcases hxy with rfl | rfl
        · exact hproc
        · exact Indented_withTail _ hproc
  exact fun d y => main (Element.size y) d y (le_refl _)

theorem Indented_format_tree {y : Element} (h : TextsStripped y) :
    Indented 0 (format_tree y) := by
  unfold format_tree
  by_cases hemp : y.children.isEmpty = true
  · rw [if_pos hemp]
    rcases h with ⟨hown, _⟩
    exact Indented_leaf ((isEmpty_true_iff _).mp hemp) hown
  · rw [if_neg hemp]
    exact Indented_indentChildren 0 y h (fun hl => hemp ((isEmpty_true_iff _).mpr hl))

theorem format_tree_stripAll_of_normal {e : Element} (h : Indented 0 e) :
    format_tree (stripAll e) = e := by
  unfold format_tree
  by_cases hemp : e.children = []
  · rw [if_pos ((isEmpty_true_iff _).mpr (by rw [stripAll_children, hemp]; rfl))]
    rcases h with ⟨htext, _, _⟩
    rw [if_pos ((isEmpty_true_iff _).mpr hemp)] at htext
    exact stripAll_of_leaf hemp htext
  · rw [if_neg (fun h2 => by
      have h3 := (isEmpty_true_iff _).mp h2
      rw [stripAll_children] at h3
      cases hl : e.children with
      | nil => exact hemp hl
      | cons a as =>
        rw [hl] at h3
        simp at h3)]
    exact indentChildren_stripAll 0 e h hemp

/-! ### Claim C2: idempotence of the full pipeline -/

/-- Every pipeline output over a well-formed input is in root normal form. -/
theorem NormalRoot_pipeline (e : Element) (hwf : wfAttrs e = true) :
    NormalRoot (transform_pipeline e) := by
  refine ⟨SNoAnnot_pipeline e, SAttrSorted_pipeline e, ?_, ?_, ?_⟩
  · show ∀ k ∈ (skel (transform_pipeline e)).kids, SNameSorted k
    unfold transform_pipeline
    rw [skel_format_tree]
    exact SNameSorted_below_G (SNameSorted_transform_tree e hwf)
  · show SRootOrder (skel (transform_pipeline e))
    unfold transform_pipeline
    rw [skel_format_tree]
    exact SRootOrder_G_transform e hwf
  · show Indented 0 (transform_pipeline e)
    exact Indented_format_tree (TextsStripped_G (TextsStripped_transform_tree e))

/-- Trees in root normal form are fixed points of the pipeline. -/
theorem pipeline_of_NormalRoot {f : Element} (h : NormalRoot f) :
    transform_pipeline f = f := by
  rcases h with ⟨h1, h2, h3, h4, h5⟩
  unfold transform_pipeline
  rw [G_transform_tree_of_normal h1 h2 h3 h4]
  exact format_tree_stripAll_of_normal h5

/-- C2: the tree pipeline of `transform` — the recursive rule pass, the root
tag sort, and the indentation pass — is idempotent on every element tree
whose attribute mappings have distinct keys (as every parsed XML document
has); re-normalising a normalised tree reproduces it exactly, hence its
serialisation byte-for-byte. -/
theorem claim2_pipeline_idempotent (e : Element) (hwf : wfAttrs e = true) :
    transform_pipeline (transform_pipeline e) = transform_pipeline e :=
  pipeline_of_NormalRoot (NormalRoot_pipeline e hwf)

/-- Witness for C2 on a concrete schema-like document with unsorted
attributes, an annotation child, whitespace text, and an unsorted
`sequence`. -/
theorem claim2_witness :
    wfAttrs exC2 = true ∧
    transform_pipeline (transform_pipeline exC2) = transform_pipeline exC2 :=
  ⟨by decide, claim2_pipeline_idempotent exC2 (by decide)⟩

end NormXSD
